import Mathlib

/-!
Verification of the micrograd scalar autograd engine (`src/micrograd.py`).

Embedding choices:
* A Python `Value` object lives on a heap and is identified by its identity.
  We model the heap as an arena: a list of node records, and object identity
  as the index (`Nat`) at which a node was appended.  All operator methods
  are state-passing functions `Store → ... → Store × Nat`.
* `data`/`grad` are Python floats; we model them as `ℝ`.  Every concrete
  number appearing in the claims is a small rational on which float64
  arithmetic is exact, and the general claims are statements of exact
  arithmetic.  `tanh` (the one transcendental the claims mention) is modelled
  separately over `ℝ`.
* Each node's `_backward` closure captures the operand objects and the output
  object; we model it as a tag (`BackRule`) carrying the captured node ids,
  dispatched by `runBackwardT` (the tag-dispatch strategy sanctioned by §9 of
  the spec).  `_prev = set(_children)` is modelled as the deduplicated list of
  children ids (`Value` defines no `__eq__`/`__hash__`, so the Python set is
  keyed by object identity, i.e. by our ids).
* Fallible constructions (`__pow__`, `__truediv__`) return `Except PyError`;
  an error means the Python exception propagates before any node is created.
* `math.pow(0, n)` with `n < 0` raises `ValueError("math domain error")`
  in CPython, while the builtin `0 ** n` (used on plain numbers by
  `__truediv__`) raises `ZeroDivisionError`; both are modelled faithfully.
  Exponents are modelled as `ℤ` (the claims only exercise integer exponents;
  a float exponent would need real-valued powers).
-/

namespace Micrograd

noncomputable section

-- Node ids are allocation indices into the arena (Python object identity).

/-- The operation tag replacing the `_backward` closure of a node: it records
which rule the closure would run and which operand ids it captured — the six
tags of spec §9: leaf, add, mul, pow(exponent), exp, tanh. -/
inductive BackRule where
  | leaf
  | add (i j : Nat)
  | mul (i j : Nat)
  | pow (i : Nat) (n : ℤ)
  | exp (i : Nat)
  | tanh (i : Nat)
deriving DecidableEq, Inhabited

/-- One `Value` object: `data`, `grad`, the `_backward` rule, the `_prev`
set (as a deduplicated id list) and the `_op`/`label` strings. -/
structure Value where
  data : ℝ
  grad : ℝ
  _backward : BackRule
  _prev : List Nat
  _op : String
  label : String
deriving Inhabited

abbrev Store := List Value

/-- Dereference a node id.  Out-of-range ids (which no Python execution can
produce) yield the default record, a fresh zero leaf. -/
def getNode : Store → Nat → Value
  | [], _ => default
  | v :: _, 0 => v
  | _ :: t, n + 1 => getNode t n

/-- Replace the node stored at index `i` (no-op when out of range). -/
def updateAt : Store → Nat → (Value → Value) → Store
  | [], _, _ => []
  | v :: t, 0, f => f v :: t
  | v :: t, n + 1, f => v :: updateAt t n f

/-- `obj.grad = g` -/
def setGrad (s : Store) (i : Nat) (g : ℝ) : Store :=
  updateAt s i fun v => { v with grad := g }

/-- `obj.grad += x` -/
def addGrad (s : Store) (i : Nat) (x : ℝ) : Store :=
  updateAt s i fun v => { v with grad := v.grad + x }

/-- Allocate a fresh object: append it to the arena and return its identity. -/
def pushValue (s : Store) (v : Value) : Store × Nat :=
  (s ++ [v], s.length)

/-- `Value.__init__`: `data`, `grad = 0.0`, `_backward` defaults to a no-op
(the `leaf` tag), `_prev = set(_children)`, `_op`, `label = ""`. -/
def Value.init (data : ℝ) (children : List Nat) (op : String) : Value :=
  { data := data, grad := 0, _backward := BackRule.leaf,
    _prev := children.dedup, _op := op, label := "" }

/-- `Value(data)`: construct a leaf object on the heap. -/
def mkLeaf (s : Store) (d : ℝ) : Store × Nat :=
  pushValue s (Value.init d [] "")

/-- A Python argument that is either a plain number or a `Value` object. -/
inductive NumOrVal where
  | num (q : ℝ)
  | val (j : Nat)

/-- `convert_second_param_to_Value`: wrap a plain number into a fresh leaf
`Value`; pass `Value` arguments through unchanged. -/
def convert_second_param (s : Store) (x : NumOrVal) : Store × Nat :=
  match x with
  | NumOrVal.num q => mkLeaf s q
  | NumOrVal.val j => (s, j)

/-- Body of `Value.__add__` (after coercion): a new node with
`data = self.data + other.data`, children `(self, other)`, op `"+"`, and the
addition backward rule. -/
def addV (s : Store) (i j : Nat) : Store × Nat :=
  pushValue s
    { Value.init ((getNode s i).data + (getNode s j).data) [i, j] "+" with
      _backward := BackRule.add i j }

/-- `Value.__add__` (decorated with `convert_second_param_to_Value`). -/
def Value.add (s : Store) (i : Nat) (other : NumOrVal) : Store × Nat :=
  let p := convert_second_param s other
  addV p.1 i p.2

/-- Body of `Value.__mul__` (after coercion). -/
def mulV (s : Store) (i j : Nat) : Store × Nat :=
  pushValue s
    { Value.init ((getNode s i).data * (getNode s j).data) [i, j] "*" with
      _backward := BackRule.mul i j }

/-- `Value.__mul__` (decorated with `convert_second_param_to_Value`). -/
def Value.mul (s : Store) (i : Nat) (other : NumOrVal) : Store × Nat :=
  let p := convert_second_param s other
  mulV p.1 i p.2

/-- `Value.__neg__`: `-1 * self`, which is `self.__rmul__(-1)`, i.e.
`self * (-1)` with the coercing `__mul__`. -/
def Value.neg (s : Store) (i : Nat) : Store × Nat :=
  Value.mul s i (NumOrVal.num (-1))

/-- Body of `Value.__sub__` (after coercion): `self + (-other)`. -/
def subV (s : Store) (i j : Nat) : Store × Nat :=
  let p := Value.neg s j
  addV p.1 i p.2

/-- `Value.__sub__` (decorated with `convert_second_param_to_Value`). -/
def Value.sub (s : Store) (i : Nat) (other : NumOrVal) : Store × Nat :=
  let p := convert_second_param s other
  subV p.1 i p.2

/-- A Python exception escaping a `Value` operation. -/
inductive PyError where
  | zeroDivisionError
  | valueError (msg : String)
deriving DecidableEq

/-- `math.pow x n` for integer `n` (CPython raises
`ValueError("math domain error")` on `0` to a negative power). -/
def mathPow (x : ℝ) (n : ℤ) : Except PyError ℝ :=
  if n < 0 ∧ x = 0 then Except.error (PyError.valueError "math domain error")
  else Except.ok (x ^ n)

/-- The builtin `x ** n` on plain Python numbers (raises
`ZeroDivisionError` on `0` to a negative power). -/
def numPow (x : ℝ) (n : ℤ) : Except PyError ℝ :=
  if n < 0 ∧ x = 0 then Except.error PyError.zeroDivisionError
  else Except.ok (x ^ n)

/-- The exponent argument of `Value.__pow__`: a plain number
(modelled as an integer) or — illegally — another `Value`. -/
inductive PowArg where
  | num (n : ℤ)
  | val (j : Nat)
deriving DecidableEq

/-- `Value.__pow__`: rejects a `Value` exponent with a `ValueError` before
anything is constructed; otherwise evaluates `math.pow(self.data, other)` and
allocates the `"**"` node with child `(self,)`. -/
def Value.pow (s : Store) (i : Nat) (arg : PowArg) :
    Except PyError (Store × Nat) :=
  match arg with
  | PowArg.val _ =>
    Except.error (PyError.valueError
      "Raising Values to powers only works with integer and float powers for now")
  | PowArg.num n =>
    match mathPow (getNode s i).data n with
    | Except.error e => Except.error e
    | Except.ok d =>
      Except.ok (pushValue s
        { Value.init d [i] "**" with _backward := BackRule.pow i n })

/-- `Value.__truediv__` (note: NOT decorated in the source): `self * other**-1`.
A plain-number divisor is inverted with the builtin power (so `0` raises
`ZeroDivisionError` and the reciprocal enters the graph as a coerced leaf);
a `Value` divisor goes through `Value.__pow__`, building a `"**"` node. -/
def Value.truediv (s : Store) (i : Nat) (other : NumOrVal) :
    Except PyError (Store × Nat) :=
  match other with
  | NumOrVal.num q =>
    match numPow q (-1) with
    | Except.error e => Except.error e
    | Except.ok r => Except.ok (Value.mul s i (NumOrVal.num r))
  | NumOrVal.val j =>
    match Value.pow s j (PowArg.num (-1)) with
    | Except.error e => Except.error e
    | Except.ok p => Except.ok (Value.mul p.1 i (NumOrVal.val p.2))

/-- `topological_sort` with explicit fuel.  The source recursion terminates
because every child id is smaller than its parent's id (ids are allocation
order); fuel `i + 1` therefore suffices to run node `i` to completion. -/
def topoSortFuel : Nat → Store → Nat → List Nat → List Nat
  | 0, _, _, acc => acc
  | fuel + 1, s, i, acc =>
    if i ∈ acc then acc
    else
      ((getNode s i)._prev.foldl (fun a ch => topoSortFuel fuel s ch a) acc)
        ++ [i]

/-- `topological_sort(value, sorted_list)`: DFS postorder with an
identity-keyed membership test. -/
def topological_sort (s : Store) (i : Nat) (acc : List Nat) :
    List Nat :=
  topoSortFuel (i + 1) s i acc

/-- `(e - 1) / (e + 1)` with `e = math.exp(2 * x)`: the value computed both
by `Value.tanh`'s forward pass and by its backward closure's `self.tanh()`
recomputation. -/
def tanhData (x : ℝ) : ℝ :=
  (Real.exp (2 * x) - 1) / (Real.exp (2 * x) + 1)

/-- `Value.exp`: a new node with `data = math.exp(self.data)`, child
`(self,)`, op `"exp"` and the exp backward rule. -/
def Value.exp (s : Store) (i : Nat) : Store × Nat :=
  pushValue s
    { Value.init (Real.exp (getNode s i).data) [i] "exp" with
      _backward := BackRule.exp i }

/-- `Value.tanh`: `e = math.exp(2 * self.data)`; a new node with
`data = (e - 1) / (e + 1)`, child `(self,)`, op `"tanh"` and the tanh
backward rule. -/
def Value.tanh (s : Store) (i : Nat) : Store × Nat :=
  pushValue s
    { Value.init (tanhData (getNode s i).data) [i] "tanh" with
      _backward := BackRule.tanh i }

/-- Run one node's `_backward` closure (tag dispatch).  Each statement of the
closure re-reads the current fields exactly as the Python statements do; the
`exp` closure recomputes `math.exp(self.data)` and the `tanh` closure
recomputes `self.tanh().data` (the temporary node that recomputation
allocates is never referenced again, so only its `data` is modelled).  The
`pow` closure evaluates `self.data ** (other - 1)` with the builtin power,
which raises `ZeroDivisionError` when `self.data` is zero and the exponent
negative — hence the `Except`. -/
def runBackward (s : Store) (out : Nat) : Except PyError Store :=
  match (getNode s out)._backward with
  | BackRule.leaf => Except.ok s
  | BackRule.add i j =>
    let s1 := addGrad s i (getNode s out).grad
    Except.ok (addGrad s1 j (getNode s1 out).grad)
  | BackRule.mul i j =>
    let s1 := addGrad s i ((getNode s j).data * (getNode s out).grad)
    Except.ok (addGrad s1 j ((getNode s1 i).data * (getNode s1 out).grad))
  | BackRule.pow i n =>
    match numPow (getNode s i).data (n - 1) with
    | Except.error e => Except.error e
    | Except.ok r =>
      Except.ok (addGrad s i ((n : ℝ) * r * (getNode s out).grad))
  | BackRule.exp i =>
    Except.ok (addGrad s i (Real.exp (getNode s i).data * (getNode s out).grad))
  | BackRule.tanh i =>
    Except.ok (addGrad s i
      ((1 - tanhData (getNode s i).data ^ 2) * (getNode s out).grad))

/-- The total core of `runBackward`: identical on every non-raising input
(`runBackward_eq_total`), with the one raising point — `0 ** negative` inside
the pow closure — extended by the field convention `0⁻¹ = 0`.  The gradient
sweep is verified against this core and transported to `runBackward`. -/
def runBackwardT (s : Store) (out : Nat) : Store :=
  match (getNode s out)._backward with
  | BackRule.leaf => s
  | BackRule.add i j =>
    let s1 := addGrad s i (getNode s out).grad
    addGrad s1 j (getNode s1 out).grad
  | BackRule.mul i j =>
    let s1 := addGrad s i ((getNode s j).data * (getNode s out).grad)
    addGrad s1 j ((getNode s1 i).data * (getNode s1 out).grad)
  | BackRule.pow i n =>
    addGrad s i ((n : ℝ) * (getNode s i).data ^ (n - 1) * (getNode s out).grad)
  | BackRule.exp i =>
    addGrad s i (Real.exp (getNode s i).data * (getNode s out).grad)
  | BackRule.tanh i =>
    addGrad s i ((1 - tanhData (getNode s i).data ^ 2) * (getNode s out).grad)

/-- Node `v`'s backward closure cannot raise: only a pow closure over a
zero base with a negative `exponent - 1` (Python's `0 ** negative`) can. -/
def PowSafe (s : Store) (v : Nat) : Prop :=
  match (getNode s v)._backward with
  | BackRule.pow i n => ¬ (n - 1 < 0 ∧ (getNode s i).data = 0)
  | _ => True

/-- `Value.backward`: order the graph, seed the root's grad with `1.0`, then
run every `_backward` in reverse topological order; a `ZeroDivisionError`
raised by a pow closure propagates out of the loop. -/
def Value.backward (s : Store) (root : Nat) : Except PyError Store :=
  let order := (topological_sort s root []).reverse
  let s1 := setGrad s root 1
  order.foldlM runBackward s1

/-- `[(yp - yt) ** 2 for yt, yp in zip(y_true, y_pred)]`.  `yp - yt` is the
coercing `__sub__`; squaring never fails (`mathPow` with exponent `2`). -/
def squaredDiffs (s : Store) :
    List (NumOrVal × Nat) → Except PyError (Store × List Nat)
  | [] => Except.ok (s, [])
  | (yt, yp) :: rest => do
    let q ← Value.pow (Value.sub s yp yt).1 (Value.sub s yp yt).2 (PowArg.num 2)
    let r ← squaredDiffs q.1 rest
    Except.ok (r.1, q.2 :: r.2)

/-- One iteration of Python's builtin `sum` loop (`total = total + item`).
While the total is still the plain int start value `q`, `q + v` dispatches to
`v.__radd__(q)`, i.e. `v + q` with the coercing `__add__`; afterwards the
total is a `Value` and `total + v` is a node-node addition. -/
def pySumStep (p : Store × NumOrVal) (v : Nat) : Store × NumOrVal :=
  match p.2 with
  | NumOrVal.num q => let r := Value.add p.1 v (NumOrVal.num q)
                      (r.1, NumOrVal.val r.2)
  | NumOrVal.val a => let r := Value.add p.1 a (NumOrVal.val v)
                      (r.1, NumOrVal.val r.2)

/-- Python's builtin `sum` with the default start `0`. -/
def pySum (s : Store) (l : List Nat) : Store × NumOrVal :=
  l.foldl pySumStep (s, NumOrVal.num 0)

/-- `mse(y_true, y_pred)`: sum of squared differences; on empty input the
Python `sum` returns the plain number `0`, not a `Value`. -/
def mse (s : Store) (yTrue : List NumOrVal) (yPred : List Nat) :
    Except PyError (Store × NumOrVal) := do
  let p ← squaredDiffs s (List.zip yTrue yPred)
  Except.ok (pySum p.1 p.2)

/-- A `Neuron` owns the ids of its weight leaves and its bias leaf. -/
structure Neuron where
  w : List Nat
  b : Nat

/-- `Neuron.parameters`: `self.w + [self.b]`. -/
def Neuron.parameters (n : Neuron) : List Nat :=
  n.w ++ [n.b]

structure Layer where
  neurons : List Neuron

/-- `Layer.parameters`: concatenation over neurons in order. -/
def Layer.parameters (l : Layer) : List Nat :=
  (l.neurons.map Neuron.parameters).flatten

structure MLP where
  layers : List Layer

/-- `MLP.parameters`: concatenation over layers in order. -/
def MLP.parameters (m : MLP) : List Nat :=
  (m.layers.map Layer.parameters).flatten

/-- `_zero_grad(params)`: `p.grad = 0.0` for each parameter in order. -/
def _zero_grad (s : Store) (ps : List Nat) : Store :=
  ps.foldl (fun s p => setGrad s p 0) s

/-- `MLP.zero_grad`: `_zero_grad(self.parameters())`. -/
def MLP.zero_grad (m : MLP) (s : Store) : Store :=
  _zero_grad s (MLP.parameters m)

/-! ### The real-valued model of `tanh`

`Value.tanh` is the one operator whose data cannot be rational; the claims
about it concern a single node, so it is modelled on a stand-alone record
over `ℝ`. -/

/-- The `data`/`grad` fields of a node, over `ℝ`. -/
structure RValue where
  data : ℝ
  grad : ℝ

/-- `Value.tanh`: `e = math.exp(2 * self.data); out = Value((e-1)/(e+1), ...)`. -/
noncomputable def RValue.tanh (self : RValue) : RValue :=
  let e := Real.exp (2 * self.data)
  { data := (e - 1) / (e + 1), grad := 0 }

/-- The `_backward` closure attached by `Value.tanh`:
`self.grad += (1 - self.tanh().data ** 2) * out.grad` — note that it
*recomputes* `self.tanh()` instead of reading the captured `out.data`. -/
noncomputable def tanhBackwardStep (self out : RValue) : RValue :=
  { self with grad := self.grad + (1 - (RValue.tanh self).data ^ 2) * out.grad }

/-! ### Analysis predicates

These definitions express the structural facts the theorems are about; they
are read off the semantics of the source, not part of it. -/

/-- The node ids captured by a `_backward` closure. -/
def ruleChildren : BackRule → List Nat
  | BackRule.leaf => []
  | BackRule.add i j => [i, j]
  | BackRule.mul i j => [i, j]
  | BackRule.pow i _ => [i]
  | BackRule.exp i => [i]
  | BackRule.tanh i => [i]

/-- Well-formedness of one node: every recorded child was allocated before
the node itself (true of every Python-constructible heap, since `_children`
are existing objects), and the closure's captured operands are among
`_prev`. -/
abbrev WfNode (s : Store) (i : Nat) : Prop :=
  (∀ ch ∈ (getNode s i)._prev, ch < i) ∧
  (∀ ch ∈ ruleChildren (getNode s i)._backward, ch < i ∧ ch ∈ (getNode s i)._prev)

/-- Well-formedness of a heap. -/
abbrev Wf (s : Store) : Prop :=
  ∀ i, i < s.length → WfNode s i

/-- `x` is reachable from `root` by following `_prev` (children) edges. -/
inductive Reachable (s : Store) (root : Nat) : Nat → Prop where
  | refl : Reachable s root root
  | step : ∀ p ch, Reachable s root p → ch ∈ (getNode s p)._prev →
      Reachable s root ch

/-- A node list is closed under children edges. -/
abbrev Closed (s : Store) (l : List Nat) : Prop :=
  ∀ p ∈ l, ∀ ch ∈ (getNode s p)._prev, ch ∈ l

/-- Every node of the list appears strictly after all of its children:
whichever way the list is split around an element, that element's children
all lie in the preceding prefix. -/
def BeforeChildren (s : Store) (l : List Nat) : Prop :=
  ∀ pre x suf, l = pre ++ x :: suf → ∀ ch ∈ (getNode s x)._prev, ch ∈ pre

/-- The total derivative contribution of node `p` to the `grad` of node `v`
when `p`'s backward rule runs with upstream gradient `1`: the sum, over the
operand slots of `p` holding `v`, of the local partial derivative of `p`'s
forward value in that slot. -/
def localContrib (s : Store) (p v : Nat) : ℝ :=
  match (getNode s p)._backward with
  | BackRule.leaf => 0
  | BackRule.add i j =>
    (if i = v then 1 else 0) + (if j = v then 1 else 0)
  | BackRule.mul i j =>
    (if i = v then (getNode s j).data else 0) +
      (if j = v then (getNode s i).data else 0)
  | BackRule.pow i n =>
    if i = v then (n : ℝ) * (getNode s i).data ^ (n - 1) else 0
  | BackRule.exp i =>
    if i = v then Real.exp (getNode s i).data else 0
  | BackRule.tanh i =>
    if i = v then 1 - tanhData (getNode s i).data ^ 2 else 0

/-- Fuel-indexed path-derivative: the derivative of `root`'s value with
respect to `v`'s value, summed over all children-edge paths from `root` down
to `v` (each path weighted by the product of the local derivatives along it).
Unfolding one step: a path is empty (`v = root`) or enters `v` from some
later-allocated parent `p`. -/
def adjointFuel : Nat → Store → Nat → Nat → ℝ
  | 0, _, _, _ => 0
  | fuel + 1, s, root, v =>
    (if v = root then 1 else 0) +
      Finset.sum (Finset.range s.length) fun p =>
        if v < p then adjointFuel fuel s root p * localContrib s p v else 0

/-- The path-summed partial derivative of `root`'s value w.r.t. `v`'s value.
Paths ascend strictly in allocation order, so `s.length + 1` fuel is enough
for the sum to have converged. -/
def adjoint (s : Store) (root v : Nat) : ℝ :=
  adjointFuel (s.length + 1) s root v

/-- The numeric value of an `mse` target argument: a plain number is itself,
a node argument contributes its `data`. -/
def targetVal (s : Store) : NumOrVal → ℝ
  | NumOrVal.num q => q
  | NumOrVal.val j => (getNode s j).data

/-- What a graph-building operation guarantees: it only appends to the heap,
returns the id of a node in range whose `data` is `d`, and leaves every
pre-existing node untouched. -/
def OpSpec (s : Store) (r : Store × Nat) (d : ℝ) : Prop :=
  (∃ t, r.1 = s ++ t) ∧ r.2 < r.1.length ∧ (getNode r.1 r.2).data = d ∧
    ∀ x, x < s.length → getNode r.1 x = getNode s x

/-- Two heaps with the same length and the same `data`, `_backward` and
`_prev` at every id (the fields a backward sweep can never change). -/
def SameShape (s s' : Store) : Prop :=
  s.length = s'.length ∧
    ∀ i, (getNode s i).data = (getNode s' i).data ∧
      (getNode s i)._backward = (getNode s' i)._backward ∧
      (getNode s i)._prev = (getNode s' i)._prev

/-! ### Concrete test graphs from the claims -/

/-- `a = Value(-3); b = Value(2); c = a*b; d = Value(2); e = c+d`
(ids 0..4). -/
def exC1 : Store :=
  let p0 := mkLeaf [] (-3)
  let p1 := mkLeaf p0.1 2
  let p2 := Value.mul p1.1 0 (NumOrVal.val 1)
  let p3 := mkLeaf p2.1 2
  let p4 := Value.add p3.1 2 (NumOrVal.val 3)
  p4.1

/-- `a = Value(2); b = Value(3); c = a*b; d = Value(4); e = d*c; f = e**2`
(ids 0..5).  The match arm on `error` is unreachable: the exponent `2` is
nonnegative, so `__pow__` cannot fail. -/
def exC2 : Store :=
  let p0 := mkLeaf [] 2
  let p1 := mkLeaf p0.1 3
  let p2 := Value.mul p1.1 0 (NumOrVal.val 1)
  let p3 := mkLeaf p2.1 4
  let p4 := Value.mul p3.1 3 (NumOrVal.val 2)
  match Value.pow p4.1 4 (PowArg.num 2) with
  | Except.ok p5 => p5.1
  | Except.error _ => p4.1

/-- Two distinct leaves with equal `data` (and equal `_op`) plus their sum:
the graph on which identity-keyed (not value-keyed) deduplication shows. -/
def exDup : Store :=
  let p0 := mkLeaf [] 1
  let p1 := mkLeaf p0.1 1
  (Value.add p1.1 0 (NumOrVal.val 1)).1

/-- `a = Value(8); c = a + a` (ids 0, 1). -/
def exC4 : Store :=
  let p0 := mkLeaf [] 8
  (Value.add p0.1 0 (NumOrVal.val 0)).1

/-- `a = Value(8); z = Value(0)` (ids 0, 1). -/
def exC3 : Store :=
  (mkLeaf (mkLeaf [] 8).1 0).1

/-- A single leaf `a = Value(8)` (id 0). -/
def exC5 : Store :=
  (mkLeaf [] 8).1

/-- `a = Value(0); c = a ** 0` (ids 0, 1).  Construction succeeds
(`math.pow(0, 0) = 1`), but `c`'s backward closure evaluates `0 ** -1` with
the builtin power and raises `ZeroDivisionError`.  The `error` match arm is
unreachable: the exponent `0` is nonnegative. -/
def exPow0 : Store :=
  match Value.pow (mkLeaf [] 0).1 0 (PowArg.num 0) with
  | Except.ok p => p.1
  | Except.error _ => (mkLeaf [] 0).1

/-- Four prediction leaves with values `[1,1,1,1]` (ids 0..3). -/
def exC8 : Store :=
  [Value.init 1 [] "", Value.init 1 [] "", Value.init 1 [] "", Value.init 1 [] ""]

/-- Four prediction leaves with values `[1,1,0,0]` (ids 0..3). -/
def exC8b : Store :=
  [Value.init 1 [] "", Value.init 1 [] "", Value.init 0 [] "", Value.init 0 [] ""]

/-- The target sequence `[1,1,1,1]` as plain numbers. -/
def ysC8 : List NumOrVal :=
  [NumOrVal.num 1, NumOrVal.num 1, NumOrVal.num 1, NumOrVal.num 1]

/-- A one-neuron network whose weight is node 0 and bias node 1. -/
def exMLP : MLP :=
  { layers := [{ neurons := [{ w := [0], b := 1 }] }] }

/-- A heap of three nodes carrying nonzero gradients; nodes 0 and 1 are the
parameters of `exMLP`, node 2 is an intermediate node. -/
def exC9 : Store :=
  [{ Value.init 5 [] "" with grad := 3 },
   { Value.init 7 [] "" with grad := 4 },
   { Value.init 9 [] "" with grad := 6 }]

/-! ### Basic heap lemmas -/

theorem length_updateAt (s : Store) (i : Nat) (f : Value → Value) :
    (updateAt s i f).length = s.length := by
  induction s generalizing i with
  | nil => rfl
  | cons v t ih =>
    cases i with
    | zero => rfl
    | succ n => simpa [updateAt] using ih n

theorem getNode_ge (s : Store) (i : Nat) (h : s.length ≤ i) :
    getNode s i = default := by
  induction s generalizing i with
  | nil => cases i <;> rfl
  | cons v t ih =>
    cases i with
    | zero => simp at h
    | succ n => exact ih n (by simpa using h)

theorem updateAt_ge (s : Store) (i : Nat) (f : Value → Value)
    (h : s.length ≤ i) : updateAt s i f = s := by
  induction s generalizing i with
  | nil => rfl
  | cons v t ih =>
    cases i with
    | zero => simp at h
    | succ n => simp [updateAt, ih n (by simpa using h)]

theorem getNode_updateAt_self (s : Store) (i : Nat) (f : Value → Value)
    (h : i < s.length) : getNode (updateAt s i f) i = f (getNode s i) := by
  induction s generalizing i with
  | nil => simp at h
  | cons v t ih =>
    cases i with
    | zero => rfl
    | succ n => exact ih n (by simpa using h)

theorem getNode_updateAt_ne (s : Store) (i j : Nat) (f : Value → Value)
    (h : j ≠ i) : getNode (updateAt s i f) j = getNode s j := by
  induction s generalizing i j with
  | nil => rfl
  | cons v t ih =>
    cases i with
    | zero =>
      cases j with
      | zero => exact absurd rfl h
      | succ m => rfl
    | succ n =>
      cases j with
      | zero => rfl
      | succ m => exact ih n m (fun hc => h (by simp [hc]))

theorem getNode_append_left (s t : Store) (i : Nat) (h : i < s.length) :
    getNode (s ++ t) i = getNode s i := by
  induction s generalizing i with
  | nil => simp at h
  | cons v u ih =>
    cases i with
    | zero => rfl
    | succ n => exact ih n (by simpa using h)

/-! ### SameShape lemmas -/

theorem sameShape_refl (s : Store) : SameShape s s :=
  ⟨rfl, fun _ => ⟨rfl, rfl, rfl⟩⟩

theorem sameShape_trans {s t u : Store} (h1 : SameShape s t)
    (h2 : SameShape t u) : SameShape s u := by
  refine ⟨h1.1.trans h2.1, fun i => ?_⟩
  obtain ⟨d1, b1, p1⟩ := h1.2 i
  obtain ⟨d2, b2, p2⟩ := h2.2 i
  exact ⟨d1.trans d2, b1.trans b2, p1.trans p2⟩

theorem sameShape_setGrad (s : Store) (i : Nat) (g : ℝ) :
    SameShape s (setGrad s i g) := by
  refine ⟨(length_updateAt s i _).symm, fun j => ?_⟩
  by_cases hj : j = i
  · subst hj
    by_cases hl : j < s.length
    · rw [setGrad, getNode_updateAt_self s j _ hl]
      exact ⟨rfl, rfl, rfl⟩
    · rw [setGrad, updateAt_ge s j _ (Nat.le_of_not_lt hl)]
      exact ⟨rfl, rfl, rfl⟩
  · rw [setGrad, getNode_updateAt_ne s i j _ hj]
    exact ⟨rfl, rfl, rfl⟩

theorem sameShape_addGrad (s : Store) (i : Nat) (x : ℝ) :
    SameShape s (addGrad s i x) := by
  refine ⟨(length_updateAt s i _).symm, fun j => ?_⟩
  by_cases hj : j = i
  · subst hj
    by_cases hl : j < s.length
    · rw [addGrad, getNode_updateAt_self s j _ hl]
      exact ⟨rfl, rfl, rfl⟩
    · rw [addGrad, updateAt_ge s j _ (Nat.le_of_not_lt hl)]
      exact ⟨rfl, rfl, rfl⟩
  · rw [addGrad, getNode_updateAt_ne s i j _ hj]
    exact ⟨rfl, rfl, rfl⟩

theorem getNode_addGrad_self (s : Store) (i : Nat) (x : ℝ)
    (h : i < s.length) :
    getNode (addGrad s i x) i =
      { getNode s i with grad := (getNode s i).grad + x } := by
  rw [addGrad, getNode_updateAt_self s i _ h]

theorem getNode_addGrad_ne (s : Store) (i j : Nat) (x : ℝ) (h : j ≠ i) :
    getNode (addGrad s i x) j = getNode s j :=
  getNode_updateAt_ne s i j _ h

theorem getNode_setGrad_self (s : Store) (i : Nat) (g : ℝ)
    (h : i < s.length) :
    getNode (setGrad s i g) i = { getNode s i with grad := g } := by
  rw [setGrad, getNode_updateAt_self s i _ h]

theorem getNode_setGrad_ne (s : Store) (i j : Nat) (g : ℝ) (h : j ≠ i) :
    getNode (setGrad s i g) j = getNode s j :=
  getNode_updateAt_ne s i j _ h

/-! ### Reachability and local-contribution lemmas -/

theorem reachable_trans {s : Store} {a b c : Nat}
    (h1 : Reachable s a b) (h2 : Reachable s b c) : Reachable s a c := by
  induction h2 with
  | refl => exact h1
  | step p ch _ hch ih => exact Reachable.step p ch ih hch

theorem reachable_le {s : Store} {root v : Nat} (hWf : Wf s)
    (h : Reachable s root v) : v ≤ root := by
  induction h with
  | refl => exact Nat.le_refl root
  | step p ch _ hch ih =>
    by_cases hp : p < s.length
    · exact Nat.le_trans (Nat.le_of_lt ((hWf p hp).1 ch hch)) ih
    · rw [getNode_ge s p (Nat.le_of_not_lt hp)] at hch
      simp [default, Value.init] at hch

theorem mem_ruleChildren_of_contrib {s : Store} {p v : Nat}
    (h : localContrib s p v ≠ 0) :
    v ∈ ruleChildren (getNode s p)._backward := by
  unfold localContrib at h
  cases hb : (getNode s p)._backward with
  | leaf => rw [hb] at h; exact absurd rfl h
  | add i j =>
    rw [hb] at h
    by_cases hi : i = v
    · simp [ruleChildren, hi]
    · by_cases hj : j = v
      · simp [ruleChildren, hj]
      · simp [hi, hj] at h
  | mul i j =>
    rw [hb] at h
    by_cases hi : i = v
    · simp [ruleChildren, hi]
    · by_cases hj : j = v
      · simp [ruleChildren, hj]
      · simp [hi, hj] at h
  | pow i n =>
    rw [hb] at h
    by_cases hi : i = v
    · simp [ruleChildren, hi]
    · simp [hi] at h
  | exp i =>
    rw [hb] at h
    by_cases hi : i = v
    · simp [ruleChildren, hi]
    · simp [hi] at h
  | tanh i =>
    rw [hb] at h
    by_cases hi : i = v
    · simp [ruleChildren, hi]
    · simp [hi] at h

theorem contrib_eq_zero_of_le {s : Store} (hWf : Wf s) {p v : Nat}
    (hpv : p ≤ v) : localContrib s p v = 0 := by
  by_contra h
  have hv := mem_ruleChildren_of_contrib h
  by_cases hp : p < s.length
  · exact absurd ((hWf p hp).2 v hv).1 (Nat.not_lt.mpr hpv)
  · rw [getNode_ge s p (Nat.le_of_not_lt hp)] at hv
    simp [default, ruleChildren] at hv

theorem contrib_child_mem_prev {s : Store} (hWf : Wf s) {p v : Nat}
    (h : localContrib s p v ≠ 0) : v ∈ (getNode s p)._prev := by
  have hv := mem_ruleChildren_of_contrib h
  by_cases hp : p < s.length
  · exact ((hWf p hp).2 v hv).2
  · rw [getNode_ge s p (Nat.le_of_not_lt hp)] at hv
    simp [default, ruleChildren] at hv

theorem Wf_congr {s s' : Store} (hsh : SameShape s s') (hWf : Wf s) :
    Wf s' := by
  intro i hi
  obtain ⟨_, hb, hp⟩ := hsh.2 i
  have h2 := hWf i (hsh.1 ▸ hi)
  constructor
  · intro ch hch
    rw [← hp] at hch
    exact h2.1 ch hch
  · intro ch hch
    rw [← hb] at hch
    rcases h2.2 ch hch with ⟨h3, h4⟩
    rw [hp] at h4
    exact ⟨h3, h4⟩

theorem contrib_congr {s s' : Store} (hsh : SameShape s s') (p v : Nat) :
    localContrib s p v = localContrib s' p v := by
  obtain ⟨dp, bp, _⟩ := hsh.2 p
  unfold localContrib
  rw [← bp]
  cases (getNode s p)._backward with
  | leaf => rfl
  | add i j => rfl
  | mul i j =>
    obtain ⟨di, _, _⟩ := hsh.2 i
    obtain ⟨dj, _, _⟩ := hsh.2 j
    dsimp only
    rw [di, dj]
  | pow i n =>
    obtain ⟨di, _, _⟩ := hsh.2 i
    dsimp only
    rw [di]
  | exp i =>
    obtain ⟨di, _, _⟩ := hsh.2 i
    dsimp only
    rw [di]
  | tanh i =>
    obtain ⟨di, _, _⟩ := hsh.2 i
    dsimp only
    rw [di]

theorem reachable_congr {s s' : Store} (hsh : SameShape s s')
    {root v : Nat} (h : Reachable s root v) : Reachable s' root v := by
  induction h with
  | refl => exact Reachable.refl
  | step p ch _ hch ih =>
    exact Reachable.step p ch ih ((hsh.2 p).2.2 ▸ hch)

/-! ### DFS (topological_sort) lemmas -/

theorem foldT_extends (s : Store) (f : ℕ)
    (H : ∀ i acc, ∃ t, topoSortFuel f s i acc = acc ++ t) :
    ∀ (l : List Nat) (acc : List Nat),
      ∃ t, l.foldl (fun a ch => topoSortFuel f s ch a) acc = acc ++ t := by
  intro l
  induction l with
  | nil => exact fun acc => ⟨[], by simp⟩
  | cons ch l ih =>
    intro acc
    obtain ⟨t1, h1⟩ := H ch acc
    obtain ⟨t2, h2⟩ := ih (topoSortFuel f s ch acc)
    refine ⟨t1 ++ t2, ?_⟩
    simp only [List.foldl_cons]
    rw [h2, h1, List.append_assoc]

theorem topoSortFuel_extends (s : Store) :
    ∀ (f : ℕ) (i : Nat) (acc : List Nat),
      ∃ t, topoSortFuel f s i acc = acc ++ t := by
  intro f
  induction f with
  | zero => exact fun i acc => ⟨[], by simp [topoSortFuel]⟩
  | succ f ih =>
    intro i acc
    by_cases h : i ∈ acc
    · exact ⟨[], by simp [topoSortFuel, h]⟩
    · obtain ⟨t, ht⟩ := foldT_extends s f ih (getNode s i)._prev acc
      exact ⟨t ++ [i], by simp [topoSortFuel, h, ht]⟩

theorem mem_topoSortFuel_of_mem {s : Store} {f : ℕ} {i x : Nat}
    {acc : List Nat} (h : x ∈ acc) : x ∈ topoSortFuel f s i acc := by
  obtain ⟨t, ht⟩ := topoSortFuel_extends s f i acc
  rw [ht]
  exact List.mem_append_left t h

theorem mem_foldT_of_mem {s : Store} {f : ℕ} {x : Nat}
    {l acc : List Nat} (h : x ∈ acc) :
    x ∈ l.foldl (fun a ch => topoSortFuel f s ch a) acc := by
  obtain ⟨t, ht⟩ := foldT_extends s f (topoSortFuel_extends s f) l acc
  rw [ht]
  exact List.mem_append_left t h

theorem foldT_mem (s : Store) (f : ℕ)
    (H : ∀ i acc x, x ∈ topoSortFuel f s i acc → x ∈ acc ∨ Reachable s i x) :
    ∀ (l acc : List Nat) (x : Nat),
      x ∈ l.foldl (fun a ch => topoSortFuel f s ch a) acc →
      x ∈ acc ∨ ∃ ch ∈ l, Reachable s ch x := by
  intro l
  induction l with
  | nil => exact fun acc x h => Or.inl (by simpa using h)
  | cons ch l ih =>
    intro acc x h
    rcases ih (topoSortFuel f s ch acc) x (by simpa using h) with h1 | ⟨c, hc, hr⟩
    · rcases H ch acc x h1 with h2 | h2
      · exact Or.inl h2
      · exact Or.inr ⟨ch, List.mem_cons_self ch l, h2⟩
    · exact Or.inr ⟨c, List.mem_cons_of_mem ch hc, hr⟩

theorem mem_topoSortFuel (s : Store) :
    ∀ (f : ℕ) (i : Nat) (acc : List Nat) (x : Nat),
      x ∈ topoSortFuel f s i acc → x ∈ acc ∨ Reachable s i x := by
  intro f
  induction f with
  | zero => exact fun i acc x h => Or.inl (by simpa [topoSortFuel] using h)
  | succ f ih =>
    intro i acc x h
    by_cases hmem : i ∈ acc
    · simp only [topoSortFuel, if_pos hmem] at h
      exact Or.inl h
    · simp only [topoSortFuel, if_neg hmem] at h
      rcases List.mem_append.mp h with h1 | h1
      · rcases foldT_mem s f ih (getNode s i)._prev acc x h1 with h2 | ⟨c, hc, hr⟩
        · exact Or.inl h2
        · exact Or.inr (reachable_trans (Reachable.step i c Reachable.refl hc) hr)
      · rcases List.mem_singleton.mp h1 with rfl
        exact Or.inr Reachable.refl

theorem closed_append_singleton {s : Store} {l : List Nat} {i : Nat}
    (hC : Closed s l) (hsub : ∀ ch ∈ (getNode s i)._prev, ch ∈ l) :
    Closed s (l ++ [i]) := by
  intro p hp ch hch
  rcases List.mem_append.mp hp with h1 | h1
  · exact List.mem_append_left _ (hC p h1 ch hch)
  · rcases List.mem_singleton.mp h1 with rfl
    exact List.mem_append_left _ (hsub ch hch)

theorem beforeChildren_append_singleton {s : Store} {l : List Nat}
    {i : Nat} (hB : BeforeChildren s l)
    (hsub : ∀ ch ∈ (getNode s i)._prev, ch ∈ l) :
    BeforeChildren s (l ++ [i]) := by
  intro pre x suf heq ch hch
  rcases List.eq_nil_or_concat' suf with rfl | ⟨suf', last, rfl⟩
  · have h2 : pre ++ [x] = l ++ [i] := by simpa using heq.symm
    obtain ⟨h3, h4⟩ := List.append_inj' h2 rfl
    rcases List.cons.injEq x [] i [] ▸ h4 with ⟨rfl, -⟩
    exact h3 ▸ hsub ch hch
  · have h2 : (pre ++ x :: suf') ++ [last] = l ++ [i] := by
      simpa using heq.symm
    obtain ⟨h3, -⟩ := List.append_inj' h2 rfl
    exact hB pre x suf' h3.symm ch hch

theorem topoSortFuel_good {s : Store} (hWf : Wf s) :
    ∀ (f : ℕ) (i : Nat) (acc : List Nat),
      i + 1 ≤ f → Closed s acc → acc.Nodup → BeforeChildren s acc →
      Closed s (topoSortFuel f s i acc) ∧ (topoSortFuel f s i acc).Nodup ∧
        BeforeChildren s (topoSortFuel f s i acc) ∧
        i ∈ topoSortFuel f s i acc := by
  intro f
  induction f with
  | zero => intro i acc hf; exact absurd hf (by omega)
  | succ f ih =>
    intro i acc hf hC hN hB
    by_cases hmem : i ∈ acc
    · simp only [topoSortFuel, if_pos hmem]
      exact ⟨hC, hN, hB, hmem⟩
    · simp only [topoSortFuel, if_neg hmem]
      -- the inner fold over the children list
      have hfold : ∀ (l acc' : List Nat), (∀ ch ∈ l, ch + 1 ≤ f) →
          Closed s acc' → acc'.Nodup → BeforeChildren s acc' →
          Closed s (l.foldl (fun a ch => topoSortFuel f s ch a) acc') ∧
            (l.foldl (fun a ch => topoSortFuel f s ch a) acc').Nodup ∧
            BeforeChildren s (l.foldl (fun a ch => topoSortFuel f s ch a) acc') ∧
            ∀ ch ∈ l, ch ∈ l.foldl (fun a ch => topoSortFuel f s ch a) acc' := by
        intro l
        induction l with
        | nil => exact fun acc' _ hC' hN' hB' => ⟨hC', hN', hB', by simp⟩
        | cons c l ihl =>
          intro acc' hc hC' hN' hB'
          have h1 := ih c acc' (hc c (List.mem_cons_self c l)) hC' hN' hB'
          have h2 := ihl (topoSortFuel f s c acc')
            (fun ch hch => hc ch (List.mem_cons_of_mem c hch)) h1.1 h1.2.1 h1.2.2.1
          refine ⟨h2.1, h2.2.1, h2.2.2.1, fun ch hch => ?_⟩
          rcases List.mem_cons.mp hch with rfl | hch2
          · simpa using mem_foldT_of_mem h1.2.2.2
          · simpa using h2.2.2.2 ch hch2
      by_cases hi : i < s.length
      · have hchlt : ∀ ch ∈ (getNode s i)._prev, ch < i := (hWf i hi).1
        have hchf : ∀ ch ∈ (getNode s i)._prev, ch + 1 ≤ f := by
          intro ch hch
          have h1 : ch < i := hchlt ch hch
          have h2 : i ≤ f := Nat.le_of_succ_le_succ hf
          omega
        obtain ⟨hC2, hN2, hB2, hmem2⟩ :=
          hfold (getNode s i)._prev acc hchf hC hN hB
        have hinotin :
            i ∉ (getNode s i)._prev.foldl (fun a ch => topoSortFuel f s ch a) acc := by
          intro hin
          rcases foldT_mem s f (mem_topoSortFuel s f) (getNode s i)._prev acc i hin with
            h1 | ⟨c, hc, hr⟩
          · exact hmem h1
          · have h5 : i ≤ c := reachable_le hWf hr
            have h6 : c < i := hchlt c hc
            omega
        refine ⟨closed_append_singleton hC2 hmem2, ?_, ?_, by simp⟩
        · exact List.Nodup.append hN2 (List.nodup_singleton i)
            (fun x hx hxi => by
              rcases List.mem_singleton.mp hxi with rfl
              exact hinotin hx)
        · exact beforeChildren_append_singleton hB2 hmem2
      · -- out-of-range node: default record, no children
        have hprev : (getNode s i)._prev = [] := by
          rw [getNode_ge s i (Nat.le_of_not_lt hi)]
          rfl
        rw [hprev]
        simp only [List.foldl_nil]
        refine ⟨closed_append_singleton hC (by rw [hprev]; simp), ?_, ?_, by simp⟩
        · exact List.Nodup.append hN (List.nodup_singleton i)
            (fun x hx hxi => by
              rcases List.mem_singleton.mp hxi with rfl
              exact hmem hx)
        · exact beforeChildren_append_singleton hB (by rw [hprev]; simp)

theorem topological_sort_good {s : Store} (hWf : Wf s) (root : Nat) :
    Closed s (topological_sort s root []) ∧
      (topological_sort s root []).Nodup ∧
      BeforeChildren s (topological_sort s root []) ∧
      root ∈ topological_sort s root [] := by
  exact topoSortFuel_good hWf (root + 1) root [] (Nat.le_refl _)
    (by intro p hp; simp at hp) List.nodup_nil
    (by intro pre x suf heq; simp at heq)

theorem mem_topological_sort {s : Store} (hWf : Wf s) (root x : Nat) :
    x ∈ topological_sort s root [] ↔ Reachable s root x := by
  constructor
  · intro h
    rcases mem_topoSortFuel s (root + 1) root [] x h with h1 | h1
    · simp at h1
    · exact h1
  · intro h
    induction h with
    | refl => exact (topological_sort_good hWf root).2.2.2
    | step p ch hp hch ih =>
      exact (topological_sort_good hWf root).1 p ih ch hch

/-! ### Path-derivative (adjoint) lemmas -/

theorem adjointFuel_stable (s : Store) (root : Nat) :
    ∀ (k v : Nat), s.length ≤ k + v →
      adjointFuel (k + 1) s root v = adjointFuel (k + 2) s root v := by
  intro k
  induction k with
  | zero =>
    intro v hv
    simp only [adjointFuel]
    congr 1
    refine Finset.sum_congr rfl fun p hp => ?_
    have hpL : p < s.length := Finset.mem_range.mp hp
    have : ¬ v < p := by omega
    simp [this]
  | succ k ih =>
    intro v hv
    conv_lhs => rw [adjointFuel]
    conv_rhs => rw [adjointFuel]
    congr 1
    refine Finset.sum_congr rfl fun p hp => ?_
    by_cases hvp : v < p
    · have : s.length ≤ k + p := by omega
      simp only [if_pos hvp]
      rw [ih p this]
    · simp [hvp]

theorem adjointFuel_ge (s : Store) (root : Nat) :
    ∀ (f1 f2 v : Nat), s.length ≤ f1 + v → f1 ≤ f2 →
      adjointFuel (f1 + 1) s root v = adjointFuel (f2 + 1) s root v := by
  intro f1 f2
  induction f2 with
  | zero =>
    intro v _ h2
    have : f1 = 0 := Nat.le_zero.mp h2
    rw [this]
  | succ f2 ih =>
    intro v h1 h2
    rcases Nat.lt_or_ge f1 (f2 + 1) with h3 | h3
    · have h4 : f1 ≤ f2 := Nat.le_of_lt_succ h3
      rw [ih v h1 h4]
      exact adjointFuel_stable s root f2 v (by omega)
    · have : f1 = f2 + 1 := Nat.le_antisymm h2 h3
      rw [this]

theorem adjoint_eq (s : Store) (root v : Nat) :
    adjoint s root v =
      (if v = root then 1 else 0) +
        Finset.sum (Finset.range s.length) fun p =>
          if v < p then adjoint s root p * localContrib s p v else 0 := by
  conv_lhs => rw [adjoint]
  conv_lhs => rw [adjointFuel]
  congr 1
  refine Finset.sum_congr rfl fun p hp => ?_
  by_cases hvp : v < p
  · simp only [if_pos hvp]
    rw [adjoint]
    have hp1 : 1 ≤ p := by omega
    have hL : p < s.length := Finset.mem_range.mp hp
    have h1 : s.length ≤ (s.length - 1) + p := by omega
    have h2 : s.length - 1 ≤ s.length := by omega
    have h3 := adjointFuel_ge s root (s.length - 1) s.length p h1 h2
    have h4 : s.length - 1 + 1 = s.length := by omega
    rw [h4] at h3
    rw [h3]
  · simp [hvp]

theorem adjoint_zero_aux {s : Store} (hWf : Wf s) {root : Nat}
    (hroot : root < s.length) :
    ∀ (k v : Nat), s.length ≤ k + v → ¬ Reachable s root v →
      adjoint s root v = 0 := by
  intro k
  induction k with
  | zero =>
    intro v hv hnr
    rw [adjoint_eq]
    have hvroot : v ≠ root := by
      intro h
      exact hnr (h ▸ Reachable.refl)
    rw [if_neg hvroot]
    have : (Finset.sum (Finset.range s.length) fun p =>
        if v < p then adjoint s root p * localContrib s p v else 0) = 0 := by
      refine Finset.sum_eq_zero fun p hp => ?_
      have := Finset.mem_range.mp hp
      have : ¬ v < p := by omega
      simp [this]
    rw [this]
    norm_num
  | succ k ih =>
    intro v hv hnr
    rw [adjoint_eq]
    have hvroot : v ≠ root := by
      intro h
      exact hnr (h ▸ Reachable.refl)
    rw [if_neg hvroot]
    have : (Finset.sum (Finset.range s.length) fun p =>
        if v < p then adjoint s root p * localContrib s p v else 0) = 0 := by
      refine Finset.sum_eq_zero fun p hp => ?_
      by_cases hvp : v < p
      · simp only [if_pos hvp]
        by_cases hc : localContrib s p v = 0
        · rw [hc, mul_zero]
        · have hprev : v ∈ (getNode s p)._prev := contrib_child_mem_prev hWf hc
          have hnp : ¬ Reachable s root p := by
            intro hr
            exact hnr (Reachable.step p v hr hprev)
          have : adjoint s root p = 0 := ih p (by omega) hnp
          rw [this, zero_mul]
      · simp [hvp]
    rw [this]
    norm_num

theorem adjoint_zero_of_not_reachable {s : Store} (hWf : Wf s) {root v : Nat}
    (hroot : root < s.length) (hnr : ¬ Reachable s root v) :
    adjoint s root v = 0 :=
  adjoint_zero_aux hWf hroot s.length v (by omega) hnr

theorem adjoint_self {s : Store} (hWf : Wf s) {root : Nat}
    (hroot : root < s.length) : adjoint s root root = 1 := by
  rw [adjoint_eq, if_pos rfl]
  have : (Finset.sum (Finset.range s.length) fun p =>
      if root < p then adjoint s root p * localContrib s p root else 0) = 0 := by
    refine Finset.sum_eq_zero fun p hp => ?_
    by_cases hrp : root < p
    · simp only [if_pos hrp]
      have hnp : ¬ Reachable s root p := by
        intro hr
        have := reachable_le hWf hr
        omega
      rw [adjoint_zero_of_not_reachable hWf hroot hnp, zero_mul]
    · simp [hrp]
  rw [this]
  norm_num

/-! ### Backward-rule execution lemmas -/

theorem runBackwardT_shape (s : Store) (out : Nat) :
    SameShape s (runBackwardT s out) := by
  unfold runBackwardT
  cases (getNode s out)._backward with
  | leaf => exact sameShape_refl s
  | add i j => exact sameShape_trans (sameShape_addGrad s i _) (sameShape_addGrad _ j _)
  | mul i j => exact sameShape_trans (sameShape_addGrad s i _) (sameShape_addGrad _ j _)
  | pow i n => exact sameShape_addGrad s i _
  | exp i => exact sameShape_addGrad s i _
  | tanh i => exact sameShape_addGrad s i _

theorem sweep_shape (l : List Nat) :
    ∀ s0 : Store, SameShape s0 (l.foldl runBackwardT s0) := by
  induction l with
  | nil => exact fun s0 => sameShape_refl s0
  | cons o l ih =>
    intro s0
    exact sameShape_trans (runBackwardT_shape s0 o) (ih (runBackwardT s0 o))

/-- The heart of gradient accumulation: running one node's backward rule adds
`localContrib out v * out.grad` to every node `v`'s gradient and changes
nothing else. -/
theorem runBackwardT_grad {s : Store} (hWf : Wf s) (out v : Nat) :
    (getNode (runBackwardT s out) v).grad =
      (getNode s v).grad + localContrib s out v * (getNode s out).grad := by
  by_cases hlen : out < s.length
  · have hch := (hWf out hlen).2
    unfold runBackwardT localContrib
    cases hb : (getNode s out)._backward with
    | leaf => simp
    | add i j =>
      have hi : i < out := (hch i (by rw [hb]; simp [ruleChildren])).1
      have hj : j < out := (hch j (by rw [hb]; simp [ruleChildren])).1
      have hine : out ≠ i := by omega
      have hilen : i < s.length := by omega
      have hjlen : j < s.length := by omega
      dsimp only
      rw [getNode_addGrad_ne s i out _ hine]
      by_cases hiv : i = v
      · by_cases hjv : j = v
        · rw [if_pos hiv, if_pos hjv, hiv, hjv]
          have hvlen : v < s.length := hiv ▸ hilen
          rw [getNode_addGrad_self _ v _ (by
              rw [← (sameShape_addGrad s v ((getNode s out).grad)).1]; exact hvlen)]
          rw [getNode_addGrad_self s v _ hvlen]
          dsimp only
          ring
        · rw [if_pos hiv, if_neg hjv, hiv]
          have hvlen : v < s.length := hiv ▸ hilen
          rw [getNode_addGrad_ne _ j v _ (fun h : v = j => hjv h.symm)]
          rw [getNode_addGrad_self s v _ hvlen]
          dsimp only
          ring
      · by_cases hjv : j = v
        · rw [if_neg hiv, if_pos hjv, hjv]
          have hvlen : v < s.length := hjv ▸ hjlen
          rw [getNode_addGrad_self _ v _ (by
              rw [← (sameShape_addGrad s i ((getNode s out).grad)).1]; exact hvlen)]
          rw [getNode_addGrad_ne s i v _ (fun h : v = i => hiv h.symm)]
          dsimp only
          ring
        · rw [if_neg hiv, if_neg hjv]
          rw [getNode_addGrad_ne _ j v _ (fun h : v = j => hjv h.symm)]
          rw [getNode_addGrad_ne s i v _ (fun h : v = i => hiv h.symm)]
          try ring
    | mul i j =>
      have hi : i < out := (hch i (by rw [hb]; simp [ruleChildren])).1
      have hj : j < out := (hch j (by rw [hb]; simp [ruleChildren])).1
      have hine : out ≠ i := by omega
      have hilen : i < s.length := by omega
      have hjlen : j < s.length := by omega
      dsimp only
      rw [getNode_addGrad_ne s i out _ hine]
      have hdata1 : ∀ x : ℝ, (getNode (addGrad s i x) i).data = (getNode s i).data :=
        fun x => ((sameShape_addGrad s i x).2 i).1.symm
      rw [hdata1]
      by_cases hiv : i = v
      · by_cases hjv : j = v
        · rw [if_pos hiv, if_pos hjv, hiv, hjv]
          have hvlen : v < s.length := hiv ▸ hilen
          rw [getNode_addGrad_self _ v _ (by
              rw [← (sameShape_addGrad s v _).1]; exact hvlen)]
          rw [getNode_addGrad_self s v _ hvlen]
          dsimp only
          ring
        · rw [if_pos hiv, if_neg hjv, hiv]
          have hvlen : v < s.length := hiv ▸ hilen
          rw [getNode_addGrad_ne _ j v _ (fun h : v = j => hjv h.symm)]
          rw [getNode_addGrad_self s v _ hvlen]
          dsimp only
          ring
      · by_cases hjv : j = v
        · rw [if_neg hiv, if_pos hjv, hjv]
          have hvlen : v < s.length := hjv ▸ hjlen
          rw [getNode_addGrad_self _ v _ (by
              rw [← (sameShape_addGrad s i _).1]; exact hvlen)]
          rw [getNode_addGrad_ne s i v _ (fun h : v = i => hiv h.symm)]
          dsimp only
          ring
        · rw [if_neg hiv, if_neg hjv]
          rw [getNode_addGrad_ne _ j v _ (fun h : v = j => hjv h.symm)]
          rw [getNode_addGrad_ne s i v _ (fun h : v = i => hiv h.symm)]
          try ring
    | pow i n =>
      have hi : i < out := (hch i (by rw [hb]; simp [ruleChildren])).1
      have hilen : i < s.length := by omega
      dsimp only
      by_cases hiv : i = v
      · rw [if_pos hiv, hiv]
        have hvlen : v < s.length := hiv ▸ hilen
        rw [getNode_addGrad_self s v _ hvlen]
        try dsimp only
        try ring
      · rw [if_neg hiv]
        rw [getNode_addGrad_ne s i v _ (fun h : v = i => hiv h.symm)]
        try ring
    | exp i =>
      have hi : i < out := (hch i (by rw [hb]; simp [ruleChildren])).1
      have hilen : i < s.length := by omega
      dsimp only
      by_cases hiv : i = v
      · rw [if_pos hiv, hiv]
        have hvlen : v < s.length := hiv ▸ hilen
        rw [getNode_addGrad_self s v _ hvlen]
        try dsimp only
        try ring
      · rw [if_neg hiv]
        rw [getNode_addGrad_ne s i v _ (fun h : v = i => hiv h.symm)]
        try ring
    | tanh i =>
      have hi : i < out := (hch i (by rw [hb]; simp [ruleChildren])).1
      have hilen : i < s.length := by omega
      dsimp only
      by_cases hiv : i = v
      · rw [if_pos hiv, hiv]
        have hvlen : v < s.length := hiv ▸ hilen
        rw [getNode_addGrad_self s v _ hvlen]
        try dsimp only
        try ring
      · rw [if_neg hiv]
        rw [getNode_addGrad_ne s i v _ (fun h : v = i => hiv h.symm)]
        try ring
  · have hdef : getNode s out = default := getNode_ge s out (Nat.le_of_not_lt hlen)
    unfold runBackwardT localContrib
    rw [hdef]
    simp [default]

/-- Convert the running list-sum of processed contributions into the
closed-form range-sum appearing in the adjoint recursion, given that `done`
already covers every parent with a nonzero contribution and weight. -/
theorem sum_done {s : Store} (hWf : Wf s) {root : Nat} (hroot : root < s.length)
    (v : Nat) (done : List Nat) (hnd : done.Nodup)
    (hsub : ∀ p ∈ done, Reachable s root p)
    (hcover : ∀ p, Reachable s root p → localContrib s p v ≠ 0 →
      adjoint s root p ≠ 0 → p ∈ done) :
    (done.map fun p => localContrib s p v * adjoint s root p).sum =
      Finset.sum (Finset.range s.length) fun p =>
        if v < p then adjoint s root p * localContrib s p v else 0 := by
  rw [← List.sum_toFinset _ hnd]
  have hterm : ∀ p ∈ done.toFinset,
      localContrib s p v * adjoint s root p =
        if v < p then adjoint s root p * localContrib s p v else 0 := by
    intro p _
    by_cases hvp : v < p
    · rw [if_pos hvp, mul_comm]
    · rw [if_neg hvp, contrib_eq_zero_of_le hWf (Nat.le_of_not_lt hvp), zero_mul]
  rw [Finset.sum_congr rfl hterm]
  refine Finset.sum_subset ?_ ?_
  · intro p hp
    have hreach := hsub p (List.mem_toFinset.mp hp)
    have := reachable_le hWf hreach
    exact Finset.mem_range.mpr (by omega)
  · intro p _ hpnot
    by_cases hvp : v < p
    · rw [if_pos hvp]
      by_cases hc : localContrib s p v = 0
      · rw [hc, mul_zero]
      · by_cases ha : adjoint s root p = 0
        · rw [ha, zero_mul]
        · by_cases hr : Reachable s root p
          · exact absurd (List.mem_toFinset.mpr (hcover p hr hc ha)) hpnot
          · rw [adjoint_zero_of_not_reachable hWf hroot hr, zero_mul]
    · rw [if_neg hvp]

/-- In the reversed (root-first) order, no node in the tail suffix may have
the current node among its children: parents always come first. -/
theorem suffix_no_parent {s : Store} {L pre suf : List Nat} {o p : Nat}
    (hB : BeforeChildren s L) (hN : L.Nodup)
    (heq : L.reverse = pre ++ o :: suf) (hp : p ∈ suf)
    (hch : o ∈ (getNode s p)._prev) : False := by
  have hL : L = suf.reverse ++ o :: pre.reverse := by
    have h1 := congrArg List.reverse heq
    rw [List.reverse_reverse] at h1
    rw [h1, List.reverse_append, List.reverse_cons, List.append_assoc]
    simp
  obtain ⟨a, b, hab⟩ := List.append_of_mem (List.mem_reverse.mpr hp)
  have hsplit : L = a ++ p :: (b ++ o :: pre.reverse) := by
    rw [hL, hab]
    simp [List.append_assoc]
  have hoa : o ∈ a := hB a p _ hsplit o hch
  have ho_suf : o ∈ suf := by
    have h2 : o ∈ suf.reverse := by
      rw [hab]
      exact List.mem_append_left _ hoa
    exact List.mem_reverse.mp h2
  have hN2 : (pre ++ o :: suf).Nodup := heq ▸ (List.nodup_reverse.mpr hN)
  exact (List.nodup_cons.mp hN2.of_append_right).1 ho_suf

/-- The sweep invariant: after processing a prefix of the reversed topological
order, every node's gradient is the seeded value plus the contributions of the
processed nodes, each weighted by its (already final) adjoint. -/
theorem sweep_inv {s : Store} (hWf : Wf s) {root : Nat}
    (hroot : root < s.length)
    (hzero : ∀ v, Reachable s root v → (getNode s v).grad = 0) :
    ∀ (suf pre : List Nat),
      (topological_sort s root []).reverse = pre ++ suf →
      (∀ v, (getNode (pre.foldl runBackwardT (setGrad s root 1)) v).grad =
        (getNode (setGrad s root 1) v).grad +
          (pre.map fun p => localContrib s p v * adjoint s root p).sum) →
      ∀ v, (getNode ((topological_sort s root []).reverse.foldl runBackwardT
          (setGrad s root 1)) v).grad =
        (getNode (setGrad s root 1) v).grad +
          ((topological_sort s root []).reverse.map fun p =>
            localContrib s p v * adjoint s root p).sum := by
  intro suf
  induction suf with
  | nil =>
    intro pre heq hInv
    rw [List.append_nil] at heq
    rw [heq]
    exact hInv
  | cons o suf ih =>
    intro pre heq hInv
    refine ih (pre ++ [o]) (by rw [heq, List.append_assoc]; rfl) ?_
    intro v
    rw [List.foldl_append]
    simp only [List.foldl_cons, List.foldl_nil]
    have hshape : SameShape s (pre.foldl runBackwardT (setGrad s root 1)) :=
      sameShape_trans (sameShape_setGrad s root 1) (sweep_shape pre _)
    have hWf2 : Wf (pre.foldl runBackwardT (setGrad s root 1)) :=
      Wf_congr hshape hWf
    have hrb := runBackwardT_grad hWf2 o v
    have hcv : localContrib (pre.foldl runBackwardT (setGrad s root 1)) o v
        = localContrib s o v := (contrib_congr hshape o v).symm
    -- the processed node's gradient is already its full adjoint
    have hLprops := topological_sort_good hWf root
    have hLnodup : (topological_sort s root []).Nodup := hLprops.2.1
    have hord_nodup : (topological_sort s root []).reverse.Nodup :=
      List.nodup_reverse.mpr hLnodup
    have ho_mem : o ∈ (topological_sort s root []).reverse := by
      rw [heq]
      exact List.mem_append_right pre (List.mem_cons_self o suf)
    have ho_reach : Reachable s root o :=
      (mem_topological_sort hWf root o).mp (List.mem_reverse.mp ho_mem)
    have hs1 : (getNode (setGrad s root 1) o).grad
        = if o = root then 1 else 0 := by
      by_cases ho : o = root
      · rw [ho, getNode_setGrad_self s root 1 hroot]
        simp [ho]
      · rw [getNode_setGrad_ne s root o 1 ho, hzero o ho_reach, if_neg ho]
    have hpre_nodup : pre.Nodup := by
      have := heq ▸ hord_nodup
      exact this.of_append_left
    have hsub : ∀ p ∈ pre, Reachable s root p := by
      intro p hp
      have hpord : p ∈ (topological_sort s root []).reverse := by
        rw [heq]
        exact List.mem_append_left _ hp
      exact (mem_topological_sort hWf root p).mp (List.mem_reverse.mp hpord)
    have hcover : ∀ p, Reachable s root p → localContrib s p o ≠ 0 →
        adjoint s root p ≠ 0 → p ∈ pre := by
      intro p hr hc _
      have hpord : p ∈ (topological_sort s root []).reverse :=
        List.mem_reverse.mpr ((mem_topological_sort hWf root p).mpr hr)
      rw [heq] at hpord
      rcases List.mem_append.mp hpord with h1 | h1
      · exact h1
      · rcases List.mem_cons.mp h1 with rfl | h2
        · exact absurd (contrib_eq_zero_of_le hWf (Nat.le_refl p)) hc
        · exact absurd
            (suffix_no_parent hLprops.2.2.1 hLnodup heq h2
              (contrib_child_mem_prev hWf hc))
            (fun h => h)
    have hco : (getNode (pre.foldl runBackwardT (setGrad s root 1)) o).grad
        = adjoint s root o := by
      rw [hInv o, hs1,
        sum_done hWf hroot o pre hpre_nodup hsub hcover, ← adjoint_eq]
    rw [hrb, hcv, hco, hInv v, List.map_append, List.sum_append]
    simp only [List.map_cons, List.map_nil, List.sum_cons, List.sum_nil]
    ring

/-- `backward()` correctness: every reachable node's gradient ends up equal to
the path-summed partial derivative of the root with respect to it. -/
theorem backwardT_grad_eq_adjoint {s : Store} (hWf : Wf s) {root : Nat}
    (hroot : root < s.length)
    (hzero : ∀ v, Reachable s root v → (getNode s v).grad = 0) :
    ∀ v, Reachable s root v →
      (getNode ((topological_sort s root []).reverse.foldl runBackwardT
        (setGrad s root 1)) v).grad = adjoint s root v := by
  intro v hv
  have hfull := sweep_inv hWf hroot hzero
    ((topological_sort s root []).reverse) [] (by simp)
    (by intro w; simp)
  have h1 := hfull v
  have hLprops := topological_sort_good hWf root
  have hLnodup : (topological_sort s root []).Nodup := hLprops.2.1
  have hord_nodup : (topological_sort s root []).reverse.Nodup :=
    List.nodup_reverse.mpr hLnodup
  have hs1 : (getNode (setGrad s root 1) v).grad
      = if v = root then 1 else 0 := by
    by_cases hvr : v = root
    · rw [hvr, getNode_setGrad_self s root 1 hroot]
      simp [hvr]
    · rw [getNode_setGrad_ne s root v 1 hvr, hzero v hv, if_neg hvr]
  have hsub : ∀ p ∈ (topological_sort s root []).reverse,
      Reachable s root p := by
    intro p hp
    exact (mem_topological_sort hWf root p).mp (List.mem_reverse.mp hp)
  have hcover : ∀ p, Reachable s root p → localContrib s p v ≠ 0 →
      adjoint s root p ≠ 0 → p ∈ (topological_sort s root []).reverse := by
    intro p hr _ _
    exact List.mem_reverse.mpr ((mem_topological_sort hWf root p).mpr hr)
  rw [h1, hs1,
    sum_done hWf hroot v _ hord_nodup hsub hcover, ← adjoint_eq]

/-! ### Relating the raising closures to their total core -/

theorem powSafe_congr {s s' : Store} (hsh : SameShape s s') {v : Nat}
    (h : PowSafe s v) : PowSafe s' v := by
  obtain ⟨_, hb, _⟩ := hsh.2 v
  unfold PowSafe at h ⊢
  rw [← hb]
  cases hbb : (getNode s v)._backward with
  | pow i n =>
    rw [hbb] at h
    dsimp only
    dsimp only at h
    rw [← ((hsh.2 i).1)]
    exact h
  | leaf => trivial
  | add i j => trivial
  | mul i j => trivial
  | exp i => trivial
  | tanh i => trivial

theorem runBackward_eq_total {s : Store} {out : Nat} (hsafe : PowSafe s out) :
    runBackward s out = Except.ok (runBackwardT s out) := by
  unfold runBackward runBackwardT PowSafe at *
  cases hb : (getNode s out)._backward with
  | leaf => rfl
  | add i j => rfl
  | mul i j => rfl
  | pow i n =>
    rw [hb] at hsafe
    dsimp only at hsafe ⊢
    have hnum : numPow (getNode s i).data (n - 1)
        = Except.ok ((getNode s i).data ^ (n - 1)) := by
      unfold numPow
      rw [if_neg hsafe]
    rw [hnum]
  | exp i => rfl
  | tanh i => rfl

theorem runBackward_ok {s s' : Store} {out : Nat}
    (h : runBackward s out = Except.ok s') : s' = runBackwardT s out := by
  unfold runBackward runBackwardT at *
  cases hb : (getNode s out)._backward with
  | leaf => rw [hb] at h; exact (Except.ok.inj h).symm
  | add i j => rw [hb] at h; exact (Except.ok.inj h).symm
  | mul i j => rw [hb] at h; exact (Except.ok.inj h).symm
  | pow i n =>
    rw [hb] at h
    dsimp only at h ⊢
    rcases hnum : numPow (getNode s i).data (n - 1) with e | r
    · rw [hnum] at h
      cases h
    · rw [hnum] at h
      have hr : r = (getNode s i).data ^ (n - 1) := by
        unfold numPow at hnum
        by_cases hc : n - 1 < 0 ∧ (getNode s i).data = 0
        · rw [if_pos hc] at hnum
          cases hnum
        · rw [if_neg hc] at hnum
          exact (Except.ok.inj hnum).symm
      rw [← hr]
      exact (Except.ok.inj h).symm
  | exp i => rw [hb] at h; exact (Except.ok.inj h).symm
  | tanh i => rw [hb] at h; exact (Except.ok.inj h).symm

theorem except_bind_ok {α β : Type} (a : α) (f : α → Except PyError β) :
    (Except.ok a >>= f) = f a := rfl

theorem foldlM_runBackward_eq {s : Store} :
    ∀ (l : List Nat) (g : Store), SameShape s g → (∀ o ∈ l, PowSafe s o) →
      l.foldlM runBackward g = Except.ok (l.foldl runBackwardT g) := by
  intro l
  induction l with
  | nil => exact fun g _ _ => rfl
  | cons o t ih =>
    intro g hsh hsafe
    have h1 : runBackward g o = Except.ok (runBackwardT g o) :=
      runBackward_eq_total (powSafe_congr hsh (hsafe o (List.mem_cons_self o t)))
    show runBackward g o >>= _ = _
    rw [h1, except_bind_ok]
    exact ih (runBackwardT g o)
      (sameShape_trans hsh (runBackwardT_shape g o))
      (fun p hp => hsafe p (List.mem_cons_of_mem o hp))

/-- Under pow-safety of every reachable node, `backward()` does not raise and
computes exactly what the total core computes. -/
theorem backward_eq_total {s : Store} (hWf : Wf s) {root : Nat}
    (hsafe : ∀ v, Reachable s root v → PowSafe s v) :
    Value.backward s root =
      Except.ok ((topological_sort s root []).reverse.foldl runBackwardT
        (setGrad s root 1)) := by
  show (topological_sort s root []).reverse.foldlM runBackward
      (setGrad s root 1) = _
  exact foldlM_runBackward_eq (topological_sort s root []).reverse
    (setGrad s root 1) (sameShape_setGrad s root 1)
    (fun o ho => hsafe o
      ((mem_topological_sort hWf root o).mp (List.mem_reverse.mp ho)))

/-! ### Graph-building operation specs (for the mse development) -/

theorem getNode_append_self (s : Store) (v : Value) :
    getNode (s ++ [v]) s.length = v := by
  induction s with
  | nil => rfl
  | cons w t ih => simpa [getNode] using ih

theorem opSpec_len_le {s : Store} {r : Store × Nat} {d : ℝ}
    (h : OpSpec s r d) : s.length ≤ r.1.length := by
  obtain ⟨⟨t, ht⟩, -, -, -⟩ := h
  rw [ht, List.length_append]
  omega

theorem pushValue_opSpec (s : Store) (v : Value) :
    OpSpec s (pushValue s v) v.data := by
  refine ⟨⟨[v], rfl⟩, ?_, ?_, ?_⟩
  · simp [pushValue]
  · exact congrArg Value.data (getNode_append_self s v)
  · exact fun x hx => getNode_append_left s [v] x hx

theorem mkLeaf_opSpec (s : Store) (q : ℝ) : OpSpec s (mkLeaf s q) q :=
  pushValue_opSpec s (Value.init q [] "")

theorem addV_opSpec (s : Store) (i j : Nat) :
    OpSpec s (addV s i j) ((getNode s i).data + (getNode s j).data) :=
  pushValue_opSpec s _

theorem mulV_opSpec (s : Store) (i j : Nat) :
    OpSpec s (mulV s i j) ((getNode s i).data * (getNode s j).data) :=
  pushValue_opSpec s _

theorem opSpec_trans {s : Store} {r1 : Store × Nat} {r2 : Store × Nat}
    {d1 d2 : ℝ} (h1 : OpSpec s r1 d1) (h2 : OpSpec r1.1 r2 d2) :
    OpSpec s r2 d2 := by
  have hlen := opSpec_len_le h1
  obtain ⟨⟨t1, ht1⟩, -, -, hp1⟩ := h1
  obtain ⟨⟨t2, ht2⟩, hk2, hd2, hp2⟩ := h2
  refine ⟨⟨t1 ++ t2, by rw [ht2, ht1, List.append_assoc]⟩, hk2, hd2, ?_⟩
  intro x hx
  rw [hp2 x (by omega)]
  exact hp1 x hx

theorem neg_opSpec (s : Store) (j : Nat) (hj : j < s.length) :
    OpSpec s (Value.neg s j) ((getNode s j).data * (-1)) := by
  have h1 := mkLeaf_opSpec s (-1)
  have h2 := mulV_opSpec (mkLeaf s (-1)).1 j (mkLeaf s (-1)).2
  have e1 : (getNode (mkLeaf s (-1)).1 j).data = (getNode s j).data :=
    congrArg Value.data (h1.2.2.2 j hj)
  have e2 : (getNode (mkLeaf s (-1)).1 (mkLeaf s (-1)).2).data = -1 := h1.2.2.1
  have h3 : Value.neg s j = mulV (mkLeaf s (-1)).1 j (mkLeaf s (-1)).2 := rfl
  rw [h3]
  have h4 := opSpec_trans h1 h2
  rw [e1, e2] at h4
  exact h4

theorem convert_opSpec (s : Store) (x : NumOrVal)
    (hx : ∀ j, x = NumOrVal.val j → j < s.length) :
    OpSpec s (convert_second_param s x) (targetVal s x) := by
  cases x with
  | num q => exact mkLeaf_opSpec s q
  | val j =>
    exact ⟨⟨[], by simp [convert_second_param]⟩, hx j rfl, rfl, fun _ _ => rfl⟩

theorem sub_opSpec (s : Store) (yp : Nat) (yt : NumOrVal)
    (hyp : yp < s.length) (hyt : ∀ j, yt = NumOrVal.val j → j < s.length) :
    OpSpec s (Value.sub s yp yt) ((getNode s yp).data - targetVal s yt) := by
  have hc := convert_opSpec s yt hyt
  have hclen := opSpec_len_le hc
  have hn := neg_opSpec (convert_second_param s yt).1 (convert_second_param s yt).2
    hc.2.1
  have hnlen := opSpec_len_le hn
  have ha := addV_opSpec (Value.neg (convert_second_param s yt).1
      (convert_second_param s yt).2).1 yp
    (Value.neg (convert_second_param s yt).1 (convert_second_param s yt).2).2
  have e1 : (getNode (Value.neg (convert_second_param s yt).1
      (convert_second_param s yt).2).1 yp).data = (getNode s yp).data := by
    rw [hn.2.2.2 yp (by omega), hc.2.2.2 yp hyp]
  have e2 : (getNode (Value.neg (convert_second_param s yt).1
        (convert_second_param s yt).2).1
      (Value.neg (convert_second_param s yt).1 (convert_second_param s yt).2).2).data
      = targetVal s yt * (-1) := by
    rw [hn.2.2.1, hc.2.2.1]
  rw [e1, e2] at ha
  have hcomp := opSpec_trans hc (opSpec_trans hn ha)
  have : Value.sub s yp yt =
      addV (Value.neg (convert_second_param s yt).1 (convert_second_param s yt).2).1
        yp (Value.neg (convert_second_param s yt).1 (convert_second_param s yt).2).2 :=
    rfl
  rw [this]
  have harith : (getNode s yp).data + targetVal s yt * (-1)
      = (getNode s yp).data - targetVal s yt := by ring
  rw [harith] at hcomp
  exact hcomp

theorem mathPow_two (x : ℝ) : mathPow x 2 = Except.ok (x ^ (2 : ℤ)) := by
  unfold mathPow
  rw [if_neg]
  intro h
  exact absurd h.1 (by norm_num)

theorem pow_two_eq (s : Store) (i : Nat) :
    Value.pow s i (PowArg.num 2) =
      Except.ok (pushValue s
        { Value.init ((getNode s i).data ^ (2 : ℤ)) [i] "**" with
          _backward := BackRule.pow i 2 }) := by
  show (match mathPow (getNode s i).data 2 with
    | Except.error e => Except.error e
    | Except.ok d =>
      Except.ok (pushValue s
        { Value.init d [i] "**" with _backward := BackRule.pow i 2 })) = _
  rw [mathPow_two]

theorem sq_step (s : Store) (yt : NumOrVal) (yp : Nat) (hyp : yp < s.length)
    (hyt : ∀ j, yt = NumOrVal.val j → j < s.length) :
    ∃ r : Store × Nat,
      Value.pow (Value.sub s yp yt).1 (Value.sub s yp yt).2 (PowArg.num 2)
        = Except.ok r ∧
      OpSpec s r (((getNode s yp).data - targetVal s yt) ^ 2) := by
  have hs := sub_opSpec s yp yt hyp hyt
  refine ⟨_, pow_two_eq (Value.sub s yp yt).1 (Value.sub s yp yt).2, ?_⟩
  have hp := pushValue_opSpec (Value.sub s yp yt).1
    { Value.init ((getNode (Value.sub s yp yt).1 (Value.sub s yp yt).2).data ^ (2 : ℤ))
        [(Value.sub s yp yt).2] "**" with
      _backward := BackRule.pow (Value.sub s yp yt).2 2 }
  have hcomp := opSpec_trans hs hp
  have e1 : ({ Value.init ((getNode (Value.sub s yp yt).1 (Value.sub s yp yt).2).data ^ (2 : ℤ))
        [(Value.sub s yp yt).2] "**" with
      _backward := BackRule.pow (Value.sub s yp yt).2 2 } : Value).data
      = ((getNode s yp).data - targetVal s yt) ^ 2 := by
    show (getNode (Value.sub s yp yt).1 (Value.sub s yp yt).2).data ^ (2 : ℤ)
      = ((getNode s yp).data - targetVal s yt) ^ 2
    rw [hs.2.2.1, show ((2 : ℤ)) = ((2 : ℕ) : ℤ) by norm_num, zpow_natCast]
  rw [e1] at hcomp
  exact hcomp

theorem targetVal_preserved {s s' : Store} (yt : NumOrVal)
    (hpres : ∀ x, x < s.length → getNode s' x = getNode s x)
    (hyt : ∀ j, yt = NumOrVal.val j → j < s.length) :
    targetVal s' yt = targetVal s yt := by
  cases yt with
  | num q => rfl
  | val j =>
    show (getNode s' j).data = (getNode s j).data
    rw [hpres j (hyt j rfl)]

theorem squaredDiffs_spec :
    ∀ (pairs : List (NumOrVal × Nat)) (s : Store),
      (∀ pr ∈ pairs, pr.2 < s.length ∧
        ∀ j, pr.1 = NumOrVal.val j → j < s.length) →
      ∃ s' l, squaredDiffs s pairs = Except.ok (s', l) ∧
        (∃ t, s' = s ++ t) ∧ (∀ e ∈ l, e < s'.length) ∧
        l.length = pairs.length ∧
        (∀ x, x < s.length → getNode s' x = getNode s x) ∧
        (l.map fun e => (getNode s' e).data).sum =
          (pairs.map fun pr =>
            ((getNode s pr.2).data - targetVal s pr.1) ^ 2).sum := by
  intro pairs
  induction pairs with
  | nil =>
    intro s _
    exact ⟨s, [], rfl, ⟨[], by simp⟩, by simp, rfl, fun _ _ => rfl, by simp⟩
  | cons hd rest ih =>
    intro s hvalid
    obtain ⟨yt, yp⟩ := hd
    have hyp : yp < s.length := (hvalid (yt, yp) (List.mem_cons_self _ _)).1
    have hyt : ∀ j, yt = NumOrVal.val j → j < s.length :=
      (hvalid (yt, yp) (List.mem_cons_self _ _)).2
    obtain ⟨r, hpow, hop⟩ := sq_step s yt yp hyp hyt
    have hrlen : s.length ≤ r.1.length := opSpec_len_le hop
    obtain ⟨s', l, hsd, ⟨t2, hext⟩, hmem, hlen, hpres, hsum⟩ :=
      ih r.1 (by
        intro pr hpr
        obtain ⟨h1, h2⟩ := hvalid pr (List.mem_cons_of_mem _ hpr)
        exact ⟨by omega, fun j hj => by have := h2 j hj; omega⟩)
    refine ⟨s', r.2 :: l, ?_, ?_, ?_, ?_, ?_, ?_⟩
    · rw [squaredDiffs, hpow, except_bind_ok, hsd, except_bind_ok]
    · obtain ⟨t1, ht1⟩ := hop.1
      exact ⟨t1 ++ t2, by rw [hext, ht1, List.append_assoc]⟩
    · intro e he
      rcases List.mem_cons.mp he with rfl | he2
      · have h3 := hop.2.1
        have h4 : r.1.length ≤ s'.length := by
          rw [hext, List.length_append]
          omega
        omega
      · exact hmem e he2
    · simpa using hlen
    · intro x hx
      rw [hpres x (by omega)]
      exact hop.2.2.2 x hx
    · simp only [List.map_cons, List.sum_cons]
      have hhead : (getNode s' r.2).data
          = ((getNode s yp).data - targetVal s yt) ^ 2 := by
        rw [hpres r.2 hop.2.1]
        exact hop.2.2.1
      have htail : (rest.map fun pr =>
            ((getNode r.1 pr.2).data - targetVal r.1 pr.1) ^ 2).sum
          = (rest.map fun pr =>
            ((getNode s pr.2).data - targetVal s pr.1) ^ 2).sum := by
        have hcongr : ∀ pr ∈ rest,
            ((getNode r.1 pr.2).data - targetVal r.1 pr.1) ^ 2
              = ((getNode s pr.2).data - targetVal s pr.1) ^ 2 := by
          intro pr hpr
          obtain ⟨h1, h2⟩ := hvalid pr (List.mem_cons_of_mem _ hpr)
          rw [hop.2.2.2 pr.2 h1, targetVal_preserved pr.1 hop.2.2.2 h2]
        rw [List.map_congr_left hcongr]
      rw [hhead, hsum, htail]

theorem pySum_go :
    ∀ (l : List Nat) (s : Store) (a : Nat), a < s.length →
      (∀ e ∈ l, e < s.length) →
      ∃ s' k, l.foldl pySumStep (s, NumOrVal.val a) = (s', NumOrVal.val k) ∧
        (∃ t, s' = s ++ t) ∧ k < s'.length ∧
        (getNode s' k).data =
          (getNode s a).data + (l.map fun e => (getNode s e).data).sum := by
  intro l
  induction l with
  | nil =>
    intro s a ha _
    exact ⟨s, a, rfl, ⟨[], by simp⟩, ha, by simp⟩
  | cons v rest ih =>
    intro s a ha hv
    have hstep : pySumStep (s, NumOrVal.val a) v
        = ((addV s a v).1, NumOrVal.val (addV s a v).2) := rfl
    have hvlen : v < s.length := hv v (List.mem_cons_self _ _)
    have hop := addV_opSpec s a v
    obtain ⟨s', k, hfold, ⟨t2, hext⟩, hk, hdata⟩ :=
      ih (addV s a v).1 (addV s a v).2 hop.2.1
        (by
          intro e he
          have := hv e (List.mem_cons_of_mem _ he)
          have := opSpec_len_le hop
          omega)
    refine ⟨s', k, ?_, ?_, hk, ?_⟩
    · rw [List.foldl_cons, hstep]
      exact hfold
    · obtain ⟨t1, ht1⟩ := hop.1
      exact ⟨t1 ++ t2, by rw [hext, ht1, List.append_assoc]⟩
    · rw [hdata, hop.2.2.1]
      have htail : (rest.map fun e => (getNode (addV s a v).1 e).data).sum
          = (rest.map fun e => (getNode s e).data).sum := by
        have hcongr : ∀ e ∈ rest,
            (getNode (addV s a v).1 e).data = (getNode s e).data := by
          intro e he
          rw [hop.2.2.2 e (hv e (List.mem_cons_of_mem _ he))]
        rw [List.map_congr_left hcongr]
      rw [htail]
      simp only [List.map_cons, List.sum_cons]
      ring

theorem pySum_spec (l : List Nat) (s : Store) (hne : l ≠ [])
    (hv : ∀ e ∈ l, e < s.length) :
    ∃ s' k, pySum s l = (s', NumOrVal.val k) ∧
      (∃ t, s' = s ++ t) ∧ k < s'.length ∧
      (getNode s' k).data = (l.map fun e => (getNode s e).data).sum := by
  cases l with
  | nil => exact absurd rfl hne
  | cons v rest =>
    have hvlen : v < s.length := hv v (List.mem_cons_self _ _)
    have hstep : pySumStep (s, NumOrVal.num 0) v
        = ((Value.add s v (NumOrVal.num 0)).1,
           NumOrVal.val (Value.add s v (NumOrVal.num 0)).2) := rfl
    have hleaf := mkLeaf_opSpec s (0 : ℝ)
    have hadd := addV_opSpec (mkLeaf s 0).1 v (mkLeaf s 0).2
    have e1 : (getNode (mkLeaf s 0).1 v).data = (getNode s v).data := by
      rw [hleaf.2.2.2 v hvlen]
    have e2 : (getNode (mkLeaf s 0).1 (mkLeaf s 0).2).data = 0 := hleaf.2.2.1
    rw [e1, e2] at hadd
    have hcomp := opSpec_trans hleaf hadd
    have heq : Value.add s v (NumOrVal.num 0)
        = addV (mkLeaf s 0).1 v (mkLeaf s 0).2 := rfl
    obtain ⟨s', k, hfold, ⟨t2, hext⟩, hk, hdata⟩ :=
      pySum_go rest (Value.add s v (NumOrVal.num 0)).1
        (Value.add s v (NumOrVal.num 0)).2
        (by rw [heq]; exact hadd.2.1)
        (by
          intro e he
          have h3 := hv e (List.mem_cons_of_mem _ he)
          have h4 : s.length ≤ (Value.add s v (NumOrVal.num 0)).1.length := by
            rw [heq]
            exact opSpec_len_le hcomp
          omega)
    refine ⟨s', k, ?_, ?_, hk, ?_⟩
    · show (v :: rest).foldl pySumStep (s, NumOrVal.num 0) = _
      rw [List.foldl_cons, hstep]
      exact hfold
    · obtain ⟨t1, ht1⟩ := hcomp.1
      rw [heq] at hext
      exact ⟨t1 ++ t2, by rw [hext, ht1, List.append_assoc]⟩
    · rw [hdata]
      have e3 : (getNode (Value.add s v (NumOrVal.num 0)).1
          (Value.add s v (NumOrVal.num 0)).2).data = (getNode s v).data + 0 := by
        rw [heq]
        exact hadd.2.2.1
      have htail : (rest.map fun e =>
            (getNode (Value.add s v (NumOrVal.num 0)).1 e).data).sum
          = (rest.map fun e => (getNode s e).data).sum := by
        have hcongr : ∀ e ∈ rest,
            (getNode (Value.add s v (NumOrVal.num 0)).1 e).data
              = (getNode s e).data := by
          intro e he
          rw [heq]
          rw [hcomp.2.2.2 e (hv e (List.mem_cons_of_mem _ he))]
        rw [List.map_congr_left hcongr]
      rw [e3, htail]
      simp only [List.map_cons, List.sum_cons]
      ring

/-- `mse` on nonempty zipped input returns a single graph node whose value is
the sum of squared differences. -/
theorem mse_spec (s : Store) (yTrue : List NumOrVal) (yPred : List Nat)
    (hne : List.zip yTrue yPred ≠ [])
    (hv : ∀ pr ∈ List.zip yTrue yPred, pr.2 < s.length ∧
      ∀ j, pr.1 = NumOrVal.val j → j < s.length) :
    ∃ s' k, mse s yTrue yPred = Except.ok (s', NumOrVal.val k) ∧
      (getNode s' k).data =
        ((List.zip yTrue yPred).map fun pr =>
          ((getNode s pr.2).data - targetVal s pr.1) ^ 2).sum := by
  obtain ⟨s1, l, hsd, ⟨t, hext⟩, hmem, hlen, hpres, hsum⟩ :=
    squaredDiffs_spec (List.zip yTrue yPred) s hv
  have hlne : l ≠ [] := by
    intro h
    rw [h] at hlen
    exact hne (List.length_eq_zero.mp hlen.symm)
  obtain ⟨s2, k, hps, _, hk, hdata⟩ := pySum_spec l s1 hlne hmem
  refine ⟨s2, k, ?_, ?_⟩
  · show (do
      let p ← squaredDiffs s (List.zip yTrue yPred)
      Except.ok (pySum p.1 p.2)) = Except.ok (s2, NumOrVal.val k)
    rw [hsd]
    show Except.ok (pySum s1 l) = Except.ok (s2, NumOrVal.val k)
    rw [hps]
  · rw [hdata, hsum]

/-! ### zero_grad lemmas -/

theorem setGrad_fields (s : Store) (p : Nat) (g : ℝ) (i : Nat) :
    (getNode (setGrad s p g) i).data = (getNode s i).data ∧
    (getNode (setGrad s p g) i)._backward = (getNode s i)._backward ∧
    (getNode (setGrad s p g) i)._prev = (getNode s i)._prev ∧
    (getNode (setGrad s p g) i)._op = (getNode s i)._op ∧
    (getNode (setGrad s p g) i).label = (getNode s i).label := by
  by_cases hip : i = p
  · subst hip
    by_cases hl : i < s.length
    · rw [getNode_setGrad_self s i g hl]
      exact ⟨rfl, rfl, rfl, rfl, rfl⟩
    · rw [setGrad, updateAt_ge s i _ (Nat.le_of_not_lt hl)]
      exact ⟨rfl, rfl, rfl, rfl, rfl⟩
  · rw [getNode_setGrad_ne s p i g hip]
    exact ⟨rfl, rfl, rfl, rfl, rfl⟩

theorem zero_grad_spec : ∀ (ps : List Nat) (s : Store),
    (∀ p ∈ ps, p < s.length) →
    (∀ p ∈ ps, (getNode (_zero_grad s ps) p).grad = 0) ∧
    (∀ i, i ∉ ps → getNode (_zero_grad s ps) i = getNode s i) ∧
    ∀ i, (getNode (_zero_grad s ps) i).data = (getNode s i).data ∧
      (getNode (_zero_grad s ps) i)._backward = (getNode s i)._backward ∧
      (getNode (_zero_grad s ps) i)._prev = (getNode s i)._prev ∧
      (getNode (_zero_grad s ps) i)._op = (getNode s i)._op ∧
      (getNode (_zero_grad s ps) i).label = (getNode s i).label := by
  intro ps
  induction ps with
  | nil =>
    intro s _
    exact ⟨by simp, fun i _ => rfl, fun i => ⟨rfl, rfl, rfl, rfl, rfl⟩⟩
  | cons p ps ih =>
    intro s hvalid
    have hplen : p < s.length := hvalid p (List.mem_cons_self _ _)
    have hstep : _zero_grad s (p :: ps) = _zero_grad (setGrad s p 0) ps := rfl
    have hvalid2 : ∀ q ∈ ps, q < (setGrad s p 0).length := by
      intro q hq
      rw [setGrad, length_updateAt]
      exact hvalid q (List.mem_cons_of_mem _ hq)
    obtain ⟨ih1, ih2, ih3⟩ := ih (setGrad s p 0) hvalid2
    refine ⟨?_, ?_, ?_⟩
    · intro q hq
      rcases List.mem_cons.mp hq with rfl | hq2
      · by_cases hq3 : q ∈ ps
        · rw [hstep]
          exact ih1 q hq3
        · rw [hstep, ih2 q hq3, getNode_setGrad_self s q 0 hplen]
      · rw [hstep]
        exact ih1 q hq2
    · intro i hi
      have hi1 : i ≠ p := fun h => hi (h ▸ List.mem_cons_self _ _)
      have hi2 : i ∉ ps := fun h => hi (List.mem_cons_of_mem _ h)
      rw [hstep, ih2 i hi2, getNode_setGrad_ne s p i 0 hi1]
    · intro i
      obtain ⟨d1, b1, p1, o1, l1⟩ := ih3 i
      obtain ⟨d2, b2, p2, o2, l2⟩ := setGrad_fields s p 0 i
      rw [hstep]
      exact ⟨d1.trans d2, b1.trans b2, p1.trans p2, o1.trans o2, l1.trans l2⟩

/-! ### The claims -/

/-- Claim C6: raising a node to the power of another graph node fails with an
InvalidArgument-kind error (`ValueError`) immediately at construction; no
`ok` result (hence no new node and no heap change) can escape. -/
theorem claim_C6_pow_node_exponent (s : Store) (i j : Nat) :
    Value.pow s i (PowArg.val j) = Except.error (PyError.valueError
      "Raising Values to powers only works with integer and float powers for now")
    ∧ ∀ r : Store × Nat, Value.pow s i (PowArg.val j) ≠ Except.ok r := by
  refine ⟨rfl, fun r h => ?_⟩
  simp [Value.pow] at h

/-- Claim C7: `tanh(a)` produces a node whose forward value is
`(e^(2·a.value) - 1) / (e^(2·a.value) + 1)`, and its backward rule adds
`(1 - tanh(a.value)^2) * out.grad` to `a.grad`; the rule's recomputation of
`tanh` from the original input is numerically identical to reading the
node's cached forward output (the right-hand side below reads the cached
`out.data` while `tanhBackwardStep` recomputes `self.tanh()`). -/
theorem claim_C7_tanh (self : RValue) (g : ℝ) :
    (RValue.tanh self).data =
      (Real.exp (2 * self.data) - 1) / (Real.exp (2 * self.data) + 1) ∧
    (tanhBackwardStep self { RValue.tanh self with grad := g }).grad =
      self.grad +
        (1 - ({ RValue.tanh self with grad := g } : RValue).data ^ 2) * g :=
  ⟨rfl, rfl⟩

/-- Claim C9: `zero_grad()` sets `grad` to exactly `0` on every node returned
by `parameters()` and changes nothing else: non-parameter nodes are untouched
and the `data`, children and op fields of every node are preserved. -/
theorem claim_C9_zero_grad (m : MLP) (s : Store)
    (hvalid : ∀ p ∈ MLP.parameters m, p < s.length) :
    (∀ p ∈ MLP.parameters m, (getNode (MLP.zero_grad m s) p).grad = 0) ∧
    (∀ i, i ∉ MLP.parameters m → getNode (MLP.zero_grad m s) i = getNode s i) ∧
    ∀ i, (getNode (MLP.zero_grad m s) i).data = (getNode s i).data ∧
      (getNode (MLP.zero_grad m s) i)._prev = (getNode s i)._prev ∧
      (getNode (MLP.zero_grad m s) i)._op = (getNode s i)._op := by
  have h := zero_grad_spec (MLP.parameters m) s hvalid
  exact ⟨h.1, h.2.1, fun i =>
    ⟨(h.2.2 i).1, (h.2.2 i).2.2.1, (h.2.2 i).2.2.2.1⟩⟩

theorem claim_C9_witness :
    (∀ p ∈ MLP.parameters exMLP, p < exC9.length) ∧
    ((∀ p ∈ MLP.parameters exMLP,
        (getNode (MLP.zero_grad exMLP exC9) p).grad = 0) ∧
      (∀ i, i ∉ MLP.parameters exMLP →
        getNode (MLP.zero_grad exMLP exC9) i = getNode exC9 i) ∧
      ∀ i, (getNode (MLP.zero_grad exMLP exC9) i).data = (getNode exC9 i).data ∧
        (getNode (MLP.zero_grad exMLP exC9) i)._prev = (getNode exC9 i)._prev ∧
        (getNode (MLP.zero_grad exMLP exC9) i)._op = (getNode exC9 i)._op) :=
  ⟨by decide, claim_C9_zero_grad exMLP exC9 (by decide)⟩

/-- Claim C10: when the target or prediction sequence is empty, `mse` returns
the plain number `0` (the `NumOrVal.num` constructor — Python's `sum` default
start) rather than a graph node, so the result has no `grad` field and no
`backward()`. -/
theorem claim_C10_mse_empty (s : Store) (yTrue : List NumOrVal)
    (yPred : List Nat) (h : yTrue = [] ∨ yPred = []) :
    mse s yTrue yPred = Except.ok (s, NumOrVal.num 0) := by
  have hz : List.zip yTrue yPred = [] := by
    rcases h with rfl | rfl
    · exact List.zip_nil_left
    · exact List.zip_nil_right
  show (do
    let p ← squaredDiffs s (List.zip yTrue yPred)
    Except.ok (pySum p.1 p.2)) = Except.ok (s, NumOrVal.num 0)
  rw [hz]
  rfl

theorem claim_C10_witness :
    (([] : List NumOrVal) = [] ∨ ([0] : List Nat) = []) ∧
    mse exC8 [] [0] = Except.ok (exC8, NumOrVal.num 0) :=
  ⟨Or.inl rfl, claim_C10_mse_empty exC8 [] [0] (Or.inl rfl)⟩

/-- Claim C3 counterexample: dividing `a = Value(8)` by the zero-valued NODE
`Value(0)` raises `ValueError("math domain error")` from `math.pow`, which is
not a DivisionByZero-kind error (`ZeroDivisionError`), refuting the claim
that every zero-valued divisor produces a DivisionByZero-kind failure. -/
theorem claim_C3_counterexample :
    Value.truediv exC3 0 (NumOrVal.val 1) =
      Except.error (PyError.valueError "math domain error") ∧
    Except.error (PyError.valueError "math domain error") ≠
      (Except.error PyError.zeroDivisionError :
        Except PyError (Store × Nat)) := by
  constructor
  · norm_num [Value.truediv, Value.pow, mathPow, exC3, mkLeaf, pushValue,
      Value.init, getNode]
  · simp

/-- Claim C3 (amended): a zero divisor always raises at evaluation of the
reciprocal during construction, never deferred to backward — but the error
class depends on the divisor's form: a plain number `0` raises
`ZeroDivisionError` (builtin `0 ** -1`), while a zero-valued node divisor, and
likewise `pow(b, -1)` on a zero-valued `b`, raise
`ValueError("math domain error")` from `math.pow`. -/
theorem claim_C3_amended :
    (∀ (s : Store) (i : Nat),
      Value.truediv s i (NumOrVal.num 0) =
        Except.error PyError.zeroDivisionError) ∧
    (∀ (s : Store) (j : Nat), (getNode s j).data = 0 →
      Value.pow s j (PowArg.num (-1)) =
        Except.error (PyError.valueError "math domain error")) ∧
    (∀ (s : Store) (i j : Nat), (getNode s j).data = 0 →
      Value.truediv s i (NumOrVal.val j) =
        Except.error (PyError.valueError "math domain error")) := by
  have hpow : ∀ (s : Store) (j : Nat), (getNode s j).data = 0 →
      Value.pow s j (PowArg.num (-1)) =
        Except.error (PyError.valueError "math domain error") := by
    intro s j h
    show (match mathPow (getNode s j).data (-1) with
      | Except.error e => Except.error e
      | Except.ok d => Except.ok (pushValue s
          { Value.init d [j] "**" with _backward := BackRule.pow j (-1) }))
      = _
    rw [h]
    norm_num [mathPow]
  refine ⟨?_, hpow, ?_⟩
  · intro s i
    norm_num [Value.truediv, numPow]
  · intro s i j h
    show (match Value.pow s j (PowArg.num (-1)) with
      | Except.error e => Except.error e
      | Except.ok p => Except.ok (Value.mul p.1 i (NumOrVal.val p.2))) = _
    rw [hpow s j h]

theorem claim_C3_witness :
    (getNode exC3 1).data = 0 ∧
    Value.truediv exC3 0 (NumOrVal.num 0) =
      Except.error PyError.zeroDivisionError ∧
    Value.pow exC3 1 (PowArg.num (-1)) =
      Except.error (PyError.valueError "math domain error") ∧
    Value.truediv exC3 0 (NumOrVal.val 1) =
      Except.error (PyError.valueError "math domain error") :=
  ⟨rfl, claim_C3_amended.1 exC3 0, claim_C3_amended.2.1 exC3 1 rfl,
    claim_C3_amended.2.2 exC3 0 1 rfl⟩

/-- Claim C5 counterexample: for division the plain-number form and the
fresh-leaf node form do NOT behave identically — `Value(8) / 0` raises
`ZeroDivisionError` while `Value(8) / Value(0)` raises
`ValueError("math domain error")`, so the error behaviour differs at the
concrete input `a = Value(8), n = 0`. -/
theorem claim_C5_counterexample :
    Value.truediv exC5 0 (NumOrVal.num 0) =
      Except.error PyError.zeroDivisionError ∧
    Value.truediv (mkLeaf exC5 0).1 0 (NumOrVal.val (mkLeaf exC5 0).2) =
      Except.error (PyError.valueError "math domain error") ∧
    (Except.error PyError.zeroDivisionError :
        Except PyError (Store × Nat)) ≠
      Except.error (PyError.valueError "math domain error") := by
  refine ⟨?_, ?_, by simp⟩
  · norm_num [Value.truediv, numPow]
  · norm_num [Value.truediv, Value.pow, mathPow, mkLeaf, pushValue,
      Value.init, getNode, exC5, getNode_append_self]

/-- Claim C5 (amended): for `+`, `-` and `*` the decorator makes the
plain-number form literally identical to applying the operator to a freshly
constructed leaf node.  Division differs: `a / n` inverts `n` as a plain
number first — raising `ZeroDivisionError` for `n = 0` — and then multiplies
by the coerced leaf `Value(1/n)`, so its graph wiring (a leaf reciprocal, no
`"**"` node) and error class differ from the node-divisor form. -/
theorem claim_C5_amended :
    (∀ (s : Store) (i : Nat) (q : ℝ),
      Value.add s i (NumOrVal.num q) =
        Value.add (mkLeaf s q).1 i (NumOrVal.val (mkLeaf s q).2)) ∧
    (∀ (s : Store) (i : Nat) (q : ℝ),
      Value.sub s i (NumOrVal.num q) =
        Value.sub (mkLeaf s q).1 i (NumOrVal.val (mkLeaf s q).2)) ∧
    (∀ (s : Store) (i : Nat) (q : ℝ),
      Value.mul s i (NumOrVal.num q) =
        Value.mul (mkLeaf s q).1 i (NumOrVal.val (mkLeaf s q).2)) ∧
    (∀ (s : Store) (i : Nat) (q : ℝ), q ≠ 0 →
      Value.truediv s i (NumOrVal.num q) =
        Except.ok (Value.mul s i (NumOrVal.num q⁻¹))) ∧
    (∀ (s : Store) (i : Nat),
      Value.truediv s i (NumOrVal.num 0) =
        Except.error PyError.zeroDivisionError) := by
  refine ⟨fun s i q => rfl, fun s i q => rfl, fun s i q => rfl, ?_, ?_⟩
  · intro s i q hq
    show (match numPow q (-1) with
      | Except.error e => Except.error e
      | Except.ok r => Except.ok (Value.mul s i (NumOrVal.num r))) = _
    have : numPow q (-1) = Except.ok (q ^ (-1 : ℤ)) := by
      unfold numPow
      rw [if_neg]
      intro hcon
      exact hq hcon.2
    rw [this, zpow_neg_one q]
  · intro s i
    norm_num [Value.truediv, numPow]

theorem claim_C5_witness :
    (2 : ℝ) ≠ 0 ∧
    Value.truediv exC5 0 (NumOrVal.num 2) =
      Except.ok (Value.mul exC5 0 (NumOrVal.num (2 : ℝ)⁻¹)) :=
  ⟨by norm_num, claim_C5_amended.2.2.2.1 exC5 0 2 (by norm_num)⟩

/-- Claim C8 counterexample: for the (equal-length) empty sequences, `mse`
does not return a graph node at all — it returns the plain number `0`
(`NumOrVal.num`), refuting "for every pair of equal-length sequences … mse
returns a single graph node". -/
theorem claim_C8_counterexample :
    mse ([] : Store) [] [] = Except.ok (([] : Store), NumOrVal.num 0) ∧
    ∀ (s' : Store) (k : Nat),
      mse ([] : Store) [] [] ≠ Except.ok (s', NumOrVal.val k) := by
  refine ⟨rfl, fun s' k h => ?_⟩
  rw [show mse ([] : Store) [] [] = Except.ok (([] : Store), NumOrVal.num 0)
    from rfl] at h
  simp at h

/-- Claim C8 (amended): for every pair of equal-length NONEMPTY sequences of
targets (plain numbers or valid nodes) and valid prediction nodes, `mse`
returns one graph node whose value is the sum over pairs of
`(prediction - target)^2`; in particular `mse([1,1,1,1],[1,1,1,1])` has value
`0` and `mse([1,1,1,1],[1,1,0,0])` has value `2`.  (On empty input it
returns the plain number `0` instead — see C10.) -/
theorem claim_C8_amended :
    (∀ (s : Store) (yTrue : List NumOrVal) (yPred : List Nat),
      yTrue.length = yPred.length → yPred ≠ [] →
      (∀ e ∈ yPred, e < s.length) →
      (∀ j, NumOrVal.val j ∈ yTrue → j < s.length) →
      ∃ s' k, mse s yTrue yPred = Except.ok (s', NumOrVal.val k) ∧
        (getNode s' k).data =
          ((List.zip yTrue yPred).map fun pr =>
            ((getNode s pr.2).data - targetVal s pr.1) ^ 2).sum) ∧
    (∃ s' k, mse exC8 ysC8 [0, 1, 2, 3] = Except.ok (s', NumOrVal.val k) ∧
      (getNode s' k).data = 0) ∧
    (∃ s' k, mse exC8b ysC8 [0, 1, 2, 3] = Except.ok (s', NumOrVal.val k) ∧
      (getNode s' k).data = 2) := by
  have hgen : ∀ (s : Store) (yTrue : List NumOrVal) (yPred : List Nat),
      yTrue.length = yPred.length → yPred ≠ [] →
      (∀ e ∈ yPred, e < s.length) →
      (∀ j, NumOrVal.val j ∈ yTrue → j < s.length) →
      ∃ s' k, mse s yTrue yPred = Except.ok (s', NumOrVal.val k) ∧
        (getNode s' k).data =
          ((List.zip yTrue yPred).map fun pr =>
            ((getNode s pr.2).data - targetVal s pr.1) ^ 2).sum := by
    intro s yTrue yPred hlen hne hvp hvt
    have hzne : List.zip yTrue yPred ≠ [] := by
      intro h
      have h2 := congrArg List.length h
      rw [List.length_zip yTrue yPred, hlen] at h2
      simp at h2
      exact hne h2
    have hv : ∀ pr ∈ List.zip yTrue yPred, pr.2 < s.length ∧
        ∀ j, pr.1 = NumOrVal.val j → j < s.length := by
      intro pr hpr
      obtain ⟨hp1, hp2⟩ := List.of_mem_zip hpr
      exact ⟨hvp pr.2 hp2, fun j hj => hvt j (hj ▸ hp1)⟩
    exact mse_spec s yTrue yPred hzne hv
  refine ⟨hgen, ?_, ?_⟩
  · obtain ⟨s', k, hm, hd⟩ := hgen exC8 ysC8 [0, 1, 2, 3] rfl (by simp)
      (by decide) (by intro j hj; simp [ysC8] at hj)
    refine ⟨s', k, hm, ?_⟩
    rw [hd]
    norm_num [exC8, ysC8, getNode, targetVal, Value.init, List.zip_cons_cons]
  · obtain ⟨s', k, hm, hd⟩ := hgen exC8b ysC8 [0, 1, 2, 3] rfl (by simp)
      (by decide) (by intro j hj; simp [ysC8] at hj)
    refine ⟨s', k, hm, ?_⟩
    rw [hd]
    norm_num [exC8b, ysC8, getNode, targetVal, Value.init, List.zip_cons_cons]

theorem claim_C8_witness :
    (ysC8.length = ([0, 1, 2, 3] : List Nat).length ∧
      ([0, 1, 2, 3] : List Nat) ≠ [] ∧
      (∀ e ∈ ([0, 1, 2, 3] : List Nat), e < exC8.length) ∧
      (∀ j, NumOrVal.val j ∈ ysC8 → j < exC8.length)) ∧
    ∃ s' k, mse exC8 ysC8 [0, 1, 2, 3] = Except.ok (s', NumOrVal.val k) ∧
      (getNode s' k).data =
        ((List.zip ysC8 [0, 1, 2, 3]).map fun pr =>
          ((getNode exC8 pr.2).data - targetVal exC8 pr.1) ^ 2).sum :=
  ⟨⟨rfl, by simp, by decide, by intro j hj; simp [ysC8] at hj⟩,
    claim_C8_amended.1 exC8 ysC8 [0, 1, 2, 3] rfl (by simp) (by decide)
      (by intro j hj; simp [ysC8] at hj)⟩

/-- Claim C4: every backward-rule invocation — add, mul, pow, exp and tanh
closures alike — ADDS its contribution to each child's grad: whenever a
closure completes (returns `ok`), it changes every node's grad by exactly
`localContrib · out.grad` (zero for non-children), never overwriting; in
particular for `c = a + a` with `c.grad = 3`, one invocation of `c`'s rule
yields `a.grad = 6`, summing over both paths. -/
theorem claim_C4_grad_accumulation :
    (∀ (s : Store) (out v : Nat) (s' : Store), Wf s →
      runBackward s out = Except.ok s' →
      (getNode s' v).grad =
        (getNode s v).grad + localContrib s out v * (getNode s out).grad) ∧
    (∃ s', runBackward (setGrad exC4 1 3) 1 = Except.ok s' ∧
      (getNode s' 0).grad = 6) := by
  constructor
  · intro s out v s' hWf hok
    rw [runBackward_ok hok]
    exact runBackwardT_grad hWf out v
  · refine ⟨runBackwardT (setGrad exC4 1 3) 1, rfl, ?_⟩
    norm_num [exC4, mkLeaf, pushValue, Value.init, Value.add,
      convert_second_param, addV, getNode, runBackwardT, setGrad, addGrad,
      updateAt, List.dedup]

theorem claim_C4_witness :
    (Wf exC4 ∧ runBackward exC4 1 = Except.ok (runBackwardT exC4 1)) ∧
    (getNode (runBackwardT exC4 1) 0).grad =
      (getNode exC4 0).grad + localContrib exC4 1 0 * (getNode exC4 1).grad :=
  ⟨⟨by decide, rfl⟩,
    claim_C4_grad_accumulation.1 exC4 1 0 (runBackwardT exC4 1) (by decide) rfl⟩

/-- Claim C2: for every root in a well-formed heap, `topological_sort`
returns a list containing exactly the nodes reachable along children edges,
each exactly once (identity-keyed: two distinct ids with equal `data` and
`_op` both appear, as `exDup` shows), with every node strictly after all of
its children; consequently for `a=2,b=3,c=a*b,d=4,e=d*c,f=e**2` the reversed
list has `f` (id 5) first, `e` (id 4) second, and `{a,b,c,d}` (ids 0-3) as
the remaining set in some order. -/
theorem claim_C2_topological_sort :
    (∀ (s : Store) (root : Nat), Wf s →
      (∀ v, v ∈ topological_sort s root [] ↔ Reachable s root v) ∧
      (topological_sort s root []).Nodup ∧
      BeforeChildren s (topological_sort s root [])) ∧
    ((topological_sort exC2 5 []).reverse.take 2 = [5, 4] ∧
      ((topological_sort exC2 5 []).reverse.drop 2).Perm [0, 1, 2, 3]) ∧
    (0 ∈ topological_sort exDup 2 [] ∧ 1 ∈ topological_sort exDup 2 [] ∧
      getNode exDup 0 = getNode exDup 1 ∧ (0 : Nat) ≠ 1) := by
  refine ⟨?_, ⟨by decide, by decide⟩, by decide, by decide, rfl, by decide⟩
  intro s root hWf
  exact ⟨fun v => mem_topological_sort hWf root v,
    (topological_sort_good hWf root).2.1,
    (topological_sort_good hWf root).2.2.1⟩

theorem claim_C2_witness :
    Wf exC2 ∧
    ((∀ v, v ∈ topological_sort exC2 5 [] ↔ Reachable exC2 5 v) ∧
      (topological_sort exC2 5 []).Nodup ∧
      BeforeChildren exC2 (topological_sort exC2 5 [])) :=
  ⟨by decide, claim_C2_topological_sort.1 exC2 5 (by decide)⟩

/-- Claim C1 counterexample: the graph `a = Value(0); c = a ** 0` has every
reachable grad equal to `0`, yet `c.backward()` does not set the grads at
all — the pow closure evaluates `0 ** -1` and raises `ZeroDivisionError`;
this refutes the claim's unrestricted "for every graph". -/
theorem claim_C1_counterexample :
    (∀ v, Reachable exPow0 1 v → (getNode exPow0 v).grad = 0) ∧
    Value.backward exPow0 1 = Except.error PyError.zeroDivisionError := by
  constructor
  · intro v hv
    have hWf : Wf exPow0 := by decide
    have hle : v ≤ 1 := reachable_le hWf hv
    interval_cases v <;> rfl
  · show (topological_sort exPow0 1 []).reverse.foldlM runBackward
      (setGrad exPow0 1 1) = _
    have hts : (topological_sort exPow0 1 []).reverse = [1, 0] := by decide
    rw [hts]
    show runBackward (setGrad exPow0 1 1) 1 >>= _ = _
    have h1 : runBackward (setGrad exPow0 1 1) 1
        = Except.error PyError.zeroDivisionError := by
      norm_num [runBackward, numPow, exPow0, mkLeaf, pushValue, Value.init,
        Value.pow, mathPow, setGrad, updateAt, getNode]
    rw [h1]
    rfl

/-- Claim C1 (amended): on a graph whose reachable nodes all carry grad `0`
and none of whose reachable pow closures would evaluate `0 ** negative`
(`PowSafe` — otherwise `backward()` raises `ZeroDivisionError`, see the
counterexample), `backward()` on the root succeeds, sets the root's grad to
`1`, and gives every reachable node the partial derivative of the root's
value with respect to it, summed over all paths (the `adjoint`); in
particular for `a=-3, b=2, c=a*b, d=2, e=c+d`, `e.backward()` yields
`a.grad = 2`, `b.grad = -3` and `c.grad = d.grad = 1`. -/
theorem claim_C1_amended :
    (∀ (s : Store) (root : Nat), Wf s → root < s.length →
      (∀ v, Reachable s root v → (getNode s v).grad = 0) →
      (∀ v, Reachable s root v → PowSafe s v) →
      ∃ s', Value.backward s root = Except.ok s' ∧
        (getNode s' root).grad = 1 ∧
        ∀ v, Reachable s root v → (getNode s' v).grad = adjoint s root v) ∧
    (∃ s', Value.backward exC1 4 = Except.ok s' ∧
      (getNode s' 0).grad = 2 ∧ (getNode s' 1).grad = -3 ∧
      (getNode s' 2).grad = 1 ∧ (getNode s' 3).grad = 1) := by
  constructor
  · intro s root hWf hroot hzero hsafe
    refine ⟨_, backward_eq_total hWf hsafe, ?_,
      backwardT_grad_eq_adjoint hWf hroot hzero⟩
    rw [backwardT_grad_eq_adjoint hWf hroot hzero root Reachable.refl,
      adjoint_self hWf hroot]
  · have hWf : Wf exC1 := by decide
    have hsafe : ∀ v, Reachable exC1 4 v → PowSafe exC1 v := by
      intro v hv
      have hle : v ≤ 4 := reachable_le hWf hv
      interval_cases v <;> exact trivial
    refine ⟨_, backward_eq_total hWf hsafe, ?_⟩
    norm_num [exC1, mkLeaf, pushValue, Value.init, Value.mul, Value.add,
      convert_second_param, mulV, addV, getNode,
      topological_sort, topoSortFuel, runBackwardT, setGrad, addGrad,
      updateAt, List.dedup]

theorem claim_C1_witness :
    (Wf exC1 ∧ 4 < exC1.length ∧
      (∀ v, Reachable exC1 4 v → (getNode exC1 v).grad = 0) ∧
      (∀ v, Reachable exC1 4 v → PowSafe exC1 v)) ∧
    (∃ s', Value.backward exC1 4 = Except.ok s' ∧
      (getNode s' 4).grad = 1 ∧
      ∀ v, Reachable exC1 4 v → (getNode s' v).grad = adjoint exC1 4 v) := by
  have hWf : Wf exC1 := by decide
  have hzero : ∀ v, Reachable exC1 4 v → (getNode exC1 v).grad = 0 := by
    intro v hv
    have hle : v ≤ 4 := reachable_le hWf hv
    interval_cases v <;> rfl
  have hsafe : ∀ v, Reachable exC1 4 v → PowSafe exC1 v := by
    intro v hv
    have hle : v ≤ 4 := reachable_le hWf hv
    interval_cases v <;> exact trivial
  exact ⟨⟨hWf, by decide, hzero, hsafe⟩,
    claim_C1_amended.1 exC1 4 hWf (by decide) hzero hsafe⟩

end

end Micrograd
